import Mathlib

/-!
Shallow embedding of the HiGHS hash-array-mapped trie
(`src/util/HighsHashTree.h`) and proofs about the claims of its
specification.

Machine integers (`uint64_t`, `int`) are modelled as `Nat`, with explicit
`% 2 ^ 64` where 64-bit overflow matters (shift truncation).  The key and
value types are fixed to `Nat`; the hash mixer `HighsHashHelpers::hash` is
not part of the embedded file, so every operation takes an arbitrary
deterministic hash function `hashF : Nat → Nat` as a parameter.
-/

namespace HighsHashTree

/-- Entry of the table: a key/value pair (`HighsHashTableEntry<K, V>`,
modelled from the spec: "A pair (key, value); entries are totally ordered
by key"). -/
structure Entry where
  key : Nat
  value : Nat
deriving Repr, DecidableEq

/-- Constant `kBitsPerLevel = 6`. -/
def kBitsPerLevel : Nat := 6

/-- Constant `kBranchFactor = 1 << kBitsPerLevel = 64`. -/
def kBranchFactor : Nat := 64

/-- Constant `kMaxDepth = (64 + 5) / 6 = 11`. -/
def kMaxDepth : Nat := 11

/-- Constant `kMinLeafSize = 6`. -/
def kMinLeafSize : Nat := 6

/-- Constant `kLeafBurstThreshold = 30`. -/
def kLeafBurstThreshold : Nat := 30

/-- Source `get_hash_chunk(hash, pos) = (hash >> (pos * kBitsPerLevel)) & (kBranchFactor - 1)`. -/
def get_hash_chunk (hash : Nat) (pos : Nat) : Nat :=
  (hash >>> (pos * kBitsPerLevel)) % kBranchFactor

/-- Fuel-bounded population count; `popcntAux 64` is the population count
of a 64-bit word. -/
def popcntAux : Nat → Nat → Nat
  | 0, _ => 0
  | f + 1, n => if n = 0 then 0 else popcntAux f (n / 2) + n % 2

/-- Population count of a `uint64_t` (modelled from the spec:
`HighsHashHelpers::popcnt` is the population count of a 64-bit word). -/
def popcnt (n : Nat) : Nat := popcntAux 64 n

/-- Fuel-bounded floor base-2 logarithm. -/
def log2iAux : Nat → Nat → Nat
  | 0, _ => 0
  | f + 1, n => if n < 2 then 0 else log2iAux f (n / 2) + 1

/-- Index of the highest set bit of a nonzero 64-bit word (modelled from
the spec: `HighsHashHelpers::log2i`, "using log2 of the mask"). -/
def log2i (n : Nat) : Nat := log2iAux 64 n

/-- Occupation `set(pos)`: `occupation |= uint64_t{1} << pos`. -/
def occSet (m : Nat) (pos : Nat) : Nat := m ||| (1 <<< pos)

/-- Occupation `flip(pos)`: `occupation ^= uint64_t{1} << pos`. -/
def occFlip (m : Nat) (pos : Nat) : Nat := m ^^^ (1 <<< pos)

/-- Occupation `test(pos)`: `occupation & (uint64_t{1} << pos)` as a Bool. -/
def occTest (m : Nat) (pos : Nat) : Bool := m.testBit pos

/-- Source `num_set_until(pos) = popcnt(occupation >> pos)`. -/
def num_set_until (m : Nat) (pos : Nat) : Nat := popcnt (m >>> pos)

/-- Source `num_set_after(pos) = popcnt(occupation << (63 - pos))`; the
left shift of a `uint64_t` truncates to 64 bits. -/
def num_set_after (m : Nat) (pos : Nat) : Nat :=
  popcnt ((m <<< (63 - pos)) % 2 ^ 64)

/-- Source `num_set() = popcnt(occupation)`. -/
def num_set (m : Nat) : Nat := popcnt m

/-- Scan of `InnerLeaf::insert_entry` when the occupation bit is already
set: walk while `entry.key() > entries[i].key()`; append at the end; on
the first `entries[i].key() ≥ entry.key()` return `false` on equality,
otherwise insert in front of position `i`. -/
def insertSortedLe (e : Entry) : List Entry → Bool × List Entry
  | [] => (true, [e])
  | x :: xs =>
    if e.key ≤ x.key then
      if e.key = x.key then (false, x :: xs)
      else (true, e :: x :: xs)
    else
      let r := insertSortedLe e xs
      (r.1, x :: r.2)

/-- Scan of `InnerLeaf::insert_entry` when the occupation bit was unset:
insert in front of the first entry with a strictly larger key (no
duplicate check). -/
def insertSortedLt (e : Entry) : List Entry → List Entry
  | [] => [e]
  | x :: xs => if e.key < x.key then e :: x :: xs else x :: insertSortedLt e xs

/-- Scan of `InnerLeaf::find_entry`: walk while `key > entries[i].key()`;
at the first `entries[i].key() ≥ key` return the entry iff the keys are
equal. -/
def findScan (k : Nat) : List Entry → Option Entry
  | [] => none
  | x :: xs => if k ≤ x.key then (if k = x.key then some x else none) else findScan k xs

/-- Single pass of `InnerLeaf::erase_entry`: `seen` is whether an entry
with the searched hash chunk has been encountered (`foundHashChunk ≠ 0`);
once an entry with equal key is found after that point it is removed (the
later entries are shifted left by one). -/
def eraseScan (hashF : Nat → Nat) (hashPos hashChunk k : Nat) :
    List Entry → Bool → Bool × List Entry
  | [], _ => (false, [])
  | x :: xs, seen =>
    let seen2 := seen || decide (get_hash_chunk (hashF x.key) hashPos = hashChunk)
    if seen2 then
      if k = x.key then (true, xs)
      else
        let r := eraseScan hashF hashPos hashChunk k xs seen2
        (r.1, x :: r.2)
    else
      let r := eraseScan hashF hashPos hashChunk k xs seen2
      (r.1, x :: r.2)

/-- Source `InnerLeaf<kSizeClass>::capacity() =
kMinLeafSize + (kSizeClass - 1) * (kLeafBurstThreshold - kMinLeafSize) / 3`. -/
def capacity (c : Nat) : Nat :=
  kMinLeafSize + (c - 1) * (kLeafBurstThreshold - kMinLeafSize) / 3

/-- Source `InnerLeaf::insert_entry` on the state `(occupation, entries)`;
returns (inserted?, new occupation, new entries).  The entry count `size`
is the length of the entry list. -/
def insert_entry (occ : Nat) (es : List Entry) (hash hashPos : Nat) (e : Entry) :
    Bool × Nat × List Entry :=
  let hashChunk := get_hash_chunk hash hashPos
  if occTest occ hashChunk then
    let r := insertSortedLe e es
    (r.1, occ, r.2)
  else
    (true, occSet occ hashChunk, insertSortedLt e es)

/-- Source `InnerLeaf::find_entry`. -/
def find_entry (occ : Nat) (es : List Entry) (hash hashPos k : Nat) : Option Entry :=
  if occTest occ (get_hash_chunk hash hashPos) then findScan k es else none

/-- Source `InnerLeaf::erase_entry`: returns (erased?, new occupation, new
entries).  The occupation bit is cleared only when the erased entry was the
only one whose hash chunk at this depth equals the searched chunk. -/
def erase_entry (hashF : Nat → Nat) (occ : Nat) (es : List Entry)
    (hash hashPos k : Nat) : Bool × Nat × List Entry :=
  let hashChunk := get_hash_chunk hash hashPos
  if occTest occ hashChunk then
    let r := eraseScan hashF hashPos hashChunk k es false
    if r.1 then
      let total := es.countP (fun x => decide (get_hash_chunk (hashF x.key) hashPos = hashChunk))
      ((true : Bool), (if total = 1 then occFlip occ hashChunk else occ), r.2)
    else ((false : Bool), occ, es)
  else ((false : Bool), occ, es)

/-- Insertion into a list leaf chain (`insert_recurse`, case `kListLeaf`):
walk the chain, return `false` on an existing key, append at the end
otherwise. -/
def listInsert (e : Entry) : List Entry → Bool × List Entry
  | [] => (true, [e])
  | x :: xs =>
    if x.key = e.key then (false, x :: xs)
    else
      let r := listInsert e xs
      (r.1, x :: r.2)

/-- Erase from a list leaf chain (`erase_recurse`, case `kListLeaf`): on a
key match, if a successor node exists it is moved into the matched node
and unlinked; when the matched node is the last of the chain nothing is
unlinked (only the caller decrements `count`).  Returns (matched?, chain). -/
def listEraseChain (k : Nat) : List Entry → Bool × List Entry
  | [] => (false, [])
  | x :: xs =>
    if x.key = k then
      match xs with
      | [] => (true, [x])
      | y :: ys => (true, y :: ys)
    else
      let r := listEraseChain k xs
      (r.1, x :: r.2)

/-- Node of the trie.  The C++ `NodePtr` discriminates six variants via a
tagged pointer; the four inner-leaf size classes share one constructor
with an explicit `sizeClass` field.  A list leaf stores its `count` field
separately from the actual chain, an inner leaf stores its occupation mask
and its sorted entry array (its `size` field is the length of the list),
and a branch stores its occupation mask and its packed child array. -/
inductive Node where
  | empty : Node
  | listLeaf (count : Nat) (chain : List Entry) : Node
  | innerLeaf (sizeClass : Nat) (occ : Nat) (entries : List Entry) : Node
  | branch (occ : Nat) (children : List Node) : Node

/-- Tag order of the `Type` enumeration (`kEmpty = 0 < kListLeaf = 1 <
kInnerLeafSizeClass1..4 = 2..5 < kBranchNode = 6`). -/
def typeTag : Node → Nat
  | .empty => 0
  | .listLeaf _ _ => 1
  | .innerLeaf c _ _ => 1 + c
  | .branch _ _ => 6

/-- Source `NodePtr::numEntriesEstimate`: capacity for inner leaves, 1 for
a list leaf, `kBranchFactor` for a branch. -/
def numEntriesEstimate : Node → Nat
  | .empty => 0
  | .listLeaf _ _ => 1
  | .innerLeaf c _ _ => capacity c
  | .branch _ _ => kBranchFactor

/-- Source `NodePtr::numEntries`: the stored `count` for a list leaf, the
stored `size` for an inner leaf, `kBranchFactor` for a branch. -/
def numEntries : Node → Nat
  | .empty => 0
  | .listLeaf count _ => count
  | .innerLeaf _ _ es => es.length
  | .branch _ _ => kBranchFactor

/-- List insertion at an index (effect of the `memmove`/`memcpy` shifting
in `addChildToBranchNode`; the slot at `i` receives the given element). -/
def insertAt {α : Type} : Nat → α → List α → List α
  | 0, x, l => x :: l
  | _ + 1, x, [] => [x]
  | n + 1, x, y :: l => y :: insertAt n x l

/-- List removal at an index (effect of the shifting in
`removeChildFromBranchNode`). -/
def removeAt {α : Type} : Nat → List α → List α
  | _, [] => []
  | 0, _ :: l => l
  | n + 1, y :: l => y :: removeAt n l

/-- Source `mergeIntoLeaf(leaf, mergeLeaf, hashPos)`: bulk re-insertion of
a list of entries into the leaf state `(occupation, entries)`, rehashing
each key. -/
def mergeEntries (hashF : Nat → Nat) (hashPos : Nat) (acc : Nat × List Entry)
    (es : List Entry) : Nat × List Entry :=
  es.foldl (fun a e =>
    let r := insert_entry a.1 a.2 (hashF e.key) hashPos e
    (r.2.1, r.2.2)) acc

/-- Source `mergeIntoLeaf(leaf, hashPos, mergeNode)`: merge a node's
entries into the leaf state; the switch handles list leaves and the four
inner leaf classes and leaves the state unchanged otherwise. -/
def mergeIntoLeafNode (hashF : Nat → Nat) (hashPos : Nat) (acc : Nat × List Entry) :
    Node → Nat × List Entry
  | .listLeaf _ chain => mergeEntries hashF hashPos acc chain
  | .innerLeaf _ _ es => mergeEntries hashF hashPos acc es
  | _ => acc

/-- Estimated entry total of the first `n + 1` child slots
(`removeChildFromBranchNode`, first loop; the loop's early break on
exceeding `kLeafBurstThreshold` makes the same final comparison decision
as the full sum). -/
def estimateSum (children : List Node) (n : Nat) : Nat :=
  ((List.range (n + 1)).map (fun i => numEntriesEstimate (children.getD i .empty))).sum

/-- Exact entry total of the first `n + 1` child slots
(`removeChildFromBranchNode`, second loop). -/
def exactSum (children : List Node) (n : Nat) : Nat :=
  ((List.range (n + 1)).map (fun i => numEntries (children.getD i .empty))).sum

/-- Source `removeChildFromBranchNode`, called with the occupation bit of
the removed child already cleared and the child array still holding the
emptied slot at `location`.  If at most 5 children remain and both the
capacity-based estimate and the exact entry count are below
`kLeafBurstThreshold`, all children are merged into a single inner leaf
whose size class is chosen by `(childEntries + 1) / 8`; otherwise the
branch is compacted by removing the slot. -/
def removeChildFromBranchNode (hashF : Nat → Nat) (occ : Nat) (children : List Node)
    (location hashPos : Nat) : Node :=
  let newNumChild := num_set occ
  if newNumChild * capacity 1 ≤ kLeafBurstThreshold then
    if estimateSum children newNumChild < kLeafBurstThreshold then
      let childEntries := exactSum children newNumChild
      if childEntries < kLeafBurstThreshold then
        let m := (List.range (newNumChild + 1)).foldl
          (fun a i => mergeIntoLeafNode hashF hashPos a (children.getD i .empty)) (0, [])
        .innerLeaf ((childEntries + 1) / 8 + 1) m.1 m.2
      else .branch occ (removeAt location children)
    else .branch occ (removeAt location children)
  else .branch occ (removeAt location children)

/-- The burst loop of `insert_recurse` (class-4 case) when
`hashPos + 1 == kMaxDepth`: funnel the existing entries into list-leaf
children.  NOTE: exactly as in the source, the child index `pos` was
computed once, from the incoming entry's hash chunk, and is reused
unchanged for every existing entry; a first arrival creates a list leaf,
later arrivals are prepended. -/
def burstListLoop (pos : Nat) (cs : List Node) : List Entry → List Node
  | [] => cs
  | e :: es =>
    let cs2 :=
      match cs.getD pos .empty with
      | .empty => cs.set pos (.listLeaf 1 [e])
      | .listLeaf cnt chain => cs.set pos (.listLeaf (cnt + 1) (e :: chain))
      | _ => cs
    burstListLoop pos cs2 es

/-- One step of distributing an entry into the branch child selected by
`num_set_until` of its hash chunk minus one (burst paths of
`insert_recurse`): the addressed child is an inner leaf and receives the
entry via `insert_entry` at depth `hashPos + 1`. -/
def distInsert (occ2 hashPos : Nat) (cs : List Node)
    (hsh : Nat) (e : Entry) : List Node :=
  let pos := num_set_until occ2 (get_hash_chunk hsh hashPos) - 1
  match cs.getD pos .empty with
  | .innerLeaf c o l =>
    let r := insert_entry o l hsh (hashPos + 1) e
    cs.set pos (.innerLeaf c r.2.1 r.2.2)
  | _ => cs

/-- Increment slot `i` of the per-child entry counters (`sizes[pos] += 1`
in the exact-size burst path). -/
def bumpAt (l : List Nat) (i : Nat) : List Nat := l.set i (l.getD i 0 + 1)

/-- Per-child entry counters of the exact-size burst path: one for the
incoming entry's chunk, then one per existing entry. -/
def burstSizes (hashF : Nat → Nat) (occ2 hashPos hashChunk : Nat)
    (es : List Entry) : List Nat :=
  es.foldl
    (fun sz e => bumpAt sz (num_set_until occ2 (get_hash_chunk (hashF e.key) hashPos) - 1))
    (bumpAt (List.replicate (num_set occ2) 0) (num_set_until occ2 hashChunk - 1))

/-- Source `insert_recurse` (together with `insert_into_leaf`), with an
explicit recursion-depth fuel: every recursive call of the source
increases `hashPos` by one, so fuel `kMaxDepth + 1` is never exhausted on
trees respecting the depth invariant.  Two paths are undefined behaviour
in the source and total here: a child position `num_set_until(...) - 1`
that would be `-1` in C++ saturates to 0 (`Nat` subtraction), and the
per-child size-class switch, which has no case for `(sizes[i] + 1) / 8 >
3` and would leave the child uninitialized, yields class `(s + 1) / 8 + 1`
uniformly. -/
def insert_recurse (hashF : Nat → Nat) : Nat → Node → Nat → Nat → Entry → Bool × Node
  | 0, node, _, _, _ => (false, node)
  | fuel + 1, node, hash, hashPos, entry =>
    match node with
    | .empty =>
      if hashPos = kMaxDepth then (true, .listLeaf 1 [entry])
      else
        let r := insert_entry 0 [] hash hashPos entry
        (true, .innerLeaf 1 r.2.1 r.2.2)
    | .listLeaf count chain =>
      let r := listInsert entry chain
      (r.1, .listLeaf (if r.1 then count + 1 else count) r.2)
    | .innerLeaf c occ es =>
      if c = 4 then
        if es.length < capacity 4 then
          let r := insert_entry occ es hash hashPos entry
          (r.1, .innerLeaf 4 r.2.1 r.2.2)
        else if (find_entry occ es hash hashPos entry.key).isSome then (false, node)
        else
          let hashChunk := get_hash_chunk hash hashPos
          let occ2 := occSet occ hashChunk
          let branchSize := num_set occ2
          if hashPos + 1 = kMaxDepth then
            let pos := num_set_until occ2 hashChunk - 1
            let children1 := (List.replicate branchSize Node.empty).set pos (.listLeaf 1 [entry])
            (true, .branch occ2 (burstListLoop pos children1 es))
          else if 1 < branchSize then
            if 2 + es.length - branchSize ≤ capacity 1 then
              let children0 := List.replicate branchSize (Node.innerLeaf 1 0 [])
              let children1 := distInsert occ2 hashPos children0 hash entry
              let children2 := es.foldl
                (fun cs e => distInsert occ2 hashPos cs (hashF e.key) e) children1
              (true, .branch occ2 children2)
            else
              let sizes := burstSizes hashF occ2 hashPos hashChunk es
              let children0 := sizes.map (fun s => Node.innerLeaf ((s + 1) / 8 + 1) 0 [])
              let children1 := es.foldl
                (fun cs e => distInsert occ2 hashPos cs (hashF e.key) e) children0
              let pos := num_set_until occ2 hashChunk - 1
              let r := insert_recurse hashF fuel (children1.getD pos .empty) hash (hashPos + 1) entry
              (r.1, .branch occ2 (children1.set pos r.2))
          else
            let r := insert_recurse hashF fuel node hash (hashPos + 1) entry
            (r.1, .branch occ2 [r.2])
      else
        if es.length = capacity c then
          if (find_entry occ es hash hashPos entry.key).isSome then (false, node)
          else
            let m := mergeEntries hashF hashPos (0, []) es
            let r := insert_entry m.1 m.2 hash hashPos entry
            (r.1, .innerLeaf (c + 1) r.2.1 r.2.2)
        else
          let r := insert_entry occ es hash hashPos entry
          (r.1, .innerLeaf c r.2.1 r.2.2)
    | .branch occ children =>
      let hashChunk := get_hash_chunk hash hashPos
      if occTest occ hashChunk then
        let location := num_set_until occ hashChunk - 1
        let r := insert_recurse hashF fuel (children.getD location .empty) hash (hashPos + 1) entry
        (r.1, .branch occ (children.set location r.2))
      else
        let location := num_set_until occ hashChunk
        let children2 := insertAt location Node.empty children
        let occ2 := occSet occ hashChunk
        let r := insert_recurse hashF fuel (children2.getD location .empty) hash (hashPos + 1) entry
        (r.1, .branch occ2 (children2.set location r.2))

/-- Source `erase_recurse` with recursion-depth fuel. -/
def erase_recurse (hashF : Nat → Nat) : Nat → Node → Nat → Nat → Nat → Node
  | 0, node, _, _, _ => node
  | fuel + 1, node, hash, hashPos, k =>
    match node with
    | .empty => node
    | .listLeaf count chain =>
      let r := listEraseChain k chain
      let count2 := if r.1 then count - 1 else count
      if count2 = 0 then .empty else .listLeaf count2 r.2
    | .innerLeaf c occ es =>
      let r := erase_entry hashF occ es hash hashPos k
      if r.1 then
        if c = 1 then
          if r.2.2.length = 0 then .empty else .innerLeaf 1 r.2.1 r.2.2
        else
          if r.2.2.length = capacity (c - 1) then
            let m := mergeEntries hashF hashPos (0, []) r.2.2
            .innerLeaf (c - 1) m.1 m.2
          else .innerLeaf c r.2.1 r.2.2
      else node
    | .branch occ children =>
      let hashChunk := get_hash_chunk hash hashPos
      if occTest occ hashChunk then
        let location := num_set_until occ hashChunk - 1
        let child2 := erase_recurse hashF fuel (children.getD location .empty) hash (hashPos + 1) k
        match child2 with
        | .empty =>
          removeChildFromBranchNode hashF (occFlip occ hashChunk)
            (children.set location .empty) location hashPos
        | c2 => .branch occ (children.set location c2)
      else node

/-- Source `find_recurse` with recursion-depth fuel. -/
def find_recurse : Nat → Node → Nat → Nat → Nat → Option Entry
  | 0, _, _, _, _ => none
  | fuel + 1, node, hash, hashPos, k =>
    match node with
    | .empty => none
    | .listLeaf _ chain => chain.find? (fun e => e.key == k)
    | .innerLeaf _ occ es => find_entry occ es hash hashPos k
    | .branch occ children =>
      let hashChunk := get_hash_chunk hash hashPos
      if occTest occ hashChunk then
        find_recurse fuel (children.getD (num_set_until occ hashChunk - 1) .empty)
          hash (hashPos + 1) k
      else none

/-- Fuel value used by all public operations: `kMaxDepth + 1 = 12`. -/
def maxFuel : Nat := kMaxDepth + 1

/-- Two-pointer merge of `findCommonInLeaf` on two sorted entry lists. -/
def twoPointer : List Entry → List Entry → Option Entry
  | x :: xs, y :: ys =>
    if x.key < y.key then twoPointer xs (y :: ys)
    else if y.key < x.key then twoPointer (x :: xs) ys
    else some x
  | _, _ => none
termination_by l1 l2 => l1.length + l2.length

/-- Source `findCommonInLeaf(leaf1, leaf2)` on two inner leaves: occupation
intersection early-out, key-range early-out, then the two-pointer merge. -/
def findCommonLeaves (occ1 : Nat) (es1 : List Entry) (occ2 : Nat)
    (es2 : List Entry) : Option Entry :=
  if occ1 &&& occ2 = 0 then none
  else if (es1.getLastD ⟨0, 0⟩).key < (es2.headD ⟨0, 0⟩).key ∨
      (es2.getLastD ⟨0, 0⟩).key < (es1.headD ⟨0, 0⟩).key then none
  else twoPointer es1 es2

/-- Source `findCommonInLeaf(leaf, n2, hashPos)`: against another inner
leaf use the sorted merge; against a branch probe each entry of the leaf
through `find_recurse`; the remaining variants fall through to null. -/
def findCommonInLeaf (hashF : Nat → Nat) (occ : Nat) (es : List Entry)
    (n2 : Node) (hashPos : Nat) : Option Entry :=
  match n2 with
  | .innerLeaf _ o2 l2 => findCommonLeaves occ es o2 l2
  | .branch _ _ => es.find? (fun e => (find_recurse maxFuel n2 (hashF e.key) hashPos e.key).isSome)
  | _ => none

/-- The `while (matchMask)` loop of `find_common_recurse` on two branch
nodes: take the highest set bit of the mask via `log2i`, run the supplied
recursion on the corresponding child pair, and clear the bit; the second
argument bounds the iteration count (64 suffices for a 64-bit mask). -/
def matchMaskLoop (f : Node → Node → Option Entry) (occ1 : Nat) (cs1 : List Node)
    (occ2 : Nat) (cs2 : List Node) : Nat → Nat → Option Entry
  | _, 0 => none
  | mask, mf + 1 =>
    if mask = 0 then none
    else
      let pos := log2i mask
      match f (cs1.getD (num_set_until occ1 pos - 1) .empty)
          (cs2.getD (num_set_until occ2 pos - 1) .empty) with
      | some e => some e
      | none => matchMaskLoop f occ1 cs1 occ2 cs2 (occFlip mask pos) mf

/-- Source `find_common_recurse` with recursion-depth fuel: the pair is
swapped so that the first node has the smaller type tag. -/
def find_common_recurse (hashF : Nat → Nat) : Nat → Node → Node → Nat → Option Entry
  | 0, _, _, _ => none
  | fuel + 1, m1, m2, hashPos =>
    let p := if typeTag m1 > typeTag m2 then (m2, m1) else (m1, m2)
    match p.1 with
    | .empty => none
    | .listLeaf _ chain =>
      chain.find? (fun e => (find_recurse maxFuel p.2 (hashF e.key) hashPos e.key).isSome)
    | .innerLeaf _ occ es => findCommonInLeaf hashF occ es p.2 hashPos
    | .branch occ1 cs1 =>
      match p.2 with
      | .branch occ2 cs2 =>
        matchMaskLoop
          (fun a b => find_common_recurse hashF fuel a b (hashPos + 1))
          occ1 cs1 occ2 cs2 (occ1 &&& occ2) 64
      | _ => none

/-- Body of the do-while loop of `copy_recurse`, case `kListLeaf`, acting
on the part of the original chain after the current node: the body copies
`*iter->next` BEFORE any null check (a null dereference when nothing
follows, modelled as `none`), advances, and continues while a next node
exists. -/
def copyChainLoop : List Entry → Option (List Entry)
  | [] => none
  | [y] => some [y]
  | y :: y2 :: ys => (copyChainLoop (y2 :: ys)).map (fun c => y :: c)

/-- Chain copy of `copy_recurse`, case `kListLeaf`: the head entry was
copied by the `ListLeaf` copy constructor, then the do-while loop runs on
the tail; a single-node chain (empty tail) dereferences a null pointer. -/
def copyChain : List Entry → Option (List Entry)
  | [] => none
  | x :: rest => (copyChainLoop rest).map (fun c => x :: c)

/-- Source `copy_recurse` with recursion-depth fuel.  The `kEmpty` case
executes `assert(false)` and control flows off the end of the function
without returning a value, so it has no defined result (`none`). -/
def copy_recurse : Nat → Node → Option Node
  | 0, _ => none
  | fuel + 1, node =>
    match node with
    | .empty => none
    | .listLeaf count chain => (copyChain chain).map (fun c => Node.listLeaf count c)
    | .innerLeaf c occ es => some (.innerLeaf c occ es)
    | .branch occ children =>
      ((List.range (num_set occ)).mapM
          (fun i => copy_recurse fuel (children.getD i .empty))).map
        (fun cs => Node.branch occ cs)

/-- Public `insert`: hash the key, start at the root with `hashPos = 0`. -/
def insert (hashF : Nat → Nat) (t : Node) (e : Entry) : Bool × Node :=
  insert_recurse hashF maxFuel t (hashF e.key) 0 e

/-- Public `erase`. -/
def erase (hashF : Nat → Nat) (t : Node) (k : Nat) : Node :=
  erase_recurse hashF maxFuel t (hashF k) 0 k

/-- Public `find`. -/
def find (hashF : Nat → Nat) (t : Node) (k : Nat) : Option Entry :=
  find_recurse maxFuel t (hashF k) 0 k

/-- Public `contains`. -/
def contains (hashF : Nat → Nat) (t : Node) (k : Nat) : Bool :=
  (find hashF t k).isSome

/-- Public `find_common`. -/
def find_common (hashF : Nat → Nat) (a b : Node) : Option Entry :=
  find_common_recurse hashF maxFuel a b 0

/-- Public copy construction / copy assignment: `copy_recurse` applied to
the root. -/
def copy (t : Node) : Option Node := copy_recurse maxFuel t

/-- All keys stored in a tree (depth-fueled traversal). -/
def keysOfR : Nat → Node → List Nat
  | 0, _ => []
  | fuel + 1, node =>
    match node with
    | .empty => []
    | .listLeaf _ chain => chain.map Entry.key
    | .innerLeaf _ _ es => es.map Entry.key
    | .branch _ cs => (cs.map (fun c => keysOfR fuel c)).flatten

/-- All keys stored in a tree. -/
def keysOf (t : Node) : List Nat := keysOfR maxFuel t

/-- Checker: every inner leaf of class `c` has `1 ≤ size ≤ cap(c)`. -/
def innerSizesOK : Nat → Node → Bool
  | 0, _ => true
  | fuel + 1, node =>
    match node with
    | .innerLeaf c _ es => decide (1 ≤ es.length) && decide (es.length ≤ capacity c)
    | .branch _ cs => cs.all (fun c => innerSizesOK fuel c)
    | _ => true

/-- Checker: every list leaf's stored `count` equals the length of its
chain. -/
def listCountsOK : Nat → Node → Bool
  | 0, _ => true
  | fuel + 1, node =>
    match node with
    | .listLeaf count chain => count == chain.length
    | .branch _ cs => cs.all (fun c => listCountsOK fuel c)
    | _ => true

/-- Checker: in every branch, each child slot whose occupation bit is set
holds a non-empty child. -/
def occupiedSlotsOK : Nat → Node → Bool
  | 0, _ => true
  | fuel + 1, node =>
    match node with
    | .branch occ cs =>
      ((List.range (num_set occ)).all (fun i =>
          match cs.getD i .empty with
          | .empty => false
          | _ => true)) &&
        cs.all (fun c => occupiedSlotsOK fuel c)
    | _ => true

/-- Structural well-formedness used as a hypothesis about branch layout:
occupation masks fit in 64 bits and every branch's child array has exactly
`popcount(occupation)` slots (the invariant the C++ allocation maintains). -/
def shapeOK : Nat → Node → Bool
  | 0, _ => true
  | fuel + 1, node =>
    match node with
    | .branch occ cs =>
      decide (occ < 2 ^ 64) && (cs.length == num_set occ) && cs.all (fun c => shapeOK fuel c)
    | .innerLeaf _ occ _ => decide (occ < 2 ^ 64)
    | _ => true

/-- Injective flattening of a tree to a list of numbers, used to observe
that two trees differ. -/
def shapeR : Nat → Node → List Nat
  | 0, _ => []
  | fuel + 1, node =>
    match node with
    | .empty => [0]
    | .listLeaf count chain => 1 :: count :: chain.length :: chain.map Entry.key
    | .innerLeaf c occ es => 2 :: c :: occ :: es.length :: es.map Entry.key
    | .branch occ cs => 3 :: occ :: cs.length :: (cs.map (fun c => shapeR fuel c)).flatten

/-- Flattened observation of a tree. -/
def shape (t : Node) : List Nat := shapeR maxFuel t

/-- Hash function of the concrete scenarios: all hash chunks at positions
0 through 9 are zero and the chunk at position 10 is `k % 16` (the two
highest chunks of a 64-bit hash have only 4 bits). -/
def hashDemo (k : Nat) : Nat := k % 16 * 2 ^ 60

/-- Tree obtained by inserting keys `0, …, n - 1` (each with itself as
value) under `hashDemo` into the empty tree. -/
def treeN (n : Nat) : Node :=
  (List.range n).foldl (fun t k => (insert hashDemo t ⟨k, k⟩).2) .empty

/-- The 31-key scenario: keys 0..29 fill a class-4 inner leaf (all their
`hashDemo` chunks at positions 0..9 agree), and inserting key 30 bursts it
down to depth 10 where the list-leaf burst path runs. -/
def tree31 : Node := treeN 31

/-- Tree after additionally erasing key 30 (whose list node is the last of
the collision chain of `tree31`). -/
def tree32 : Node := erase hashDemo tree31 30

/-- Tree after erasing key 30 twice. -/
def tree33 : Node := erase hashDemo tree32 30

/-- Tree after erasing key 30 twice and then erasing the absent key 16,
which triggers the merge-back of the depth-10 branch. -/
def tree34 : Node := erase hashDemo tree33 16

/-- Single-entry tree holding key 1. -/
def treeB : Node := (insert hashDemo Node.empty ⟨1, 1⟩).2

/-- Discriminator: is the node an inner leaf? -/
def isInnerLeafN : Node → Bool
  | .innerLeaf _ _ _ => true
  | _ => false

/-- Discriminator: is the node a branch? -/
def isBranchN : Node → Bool
  | .branch _ _ => true
  | _ => false

/-- Inner leaf child of the merge-back counterexample: a class-1 leaf
holding the single entry with key `k` (placed under the branch child slot
of chunk `k`, consistently with the identity hash). -/
def oneLeaf (k : Nat) : Node :=
  .innerLeaf 1 (occSet 0 (get_hash_chunk k 1)) [⟨k, k⟩]

/-- Child array of the merge-back counterexample: after removing the child
of chunk 0 from a branch with occupation bits 1..6, six one-entry class-1
leaves remain (stored in descending chunk order) and the removed slot at
location 6 is empty. -/
def cexChildren : List Node :=
  [oneLeaf 6, oneLeaf 5, oneLeaf 4, oneLeaf 3, oneLeaf 2, oneLeaf 1, .empty]

/-- Occupation of the merge-back counterexample after the removed child's
bit was flipped: bits 1..6. -/
def cexOcc : Nat := 126

/-- Identity hash used by small concrete examples (chunk 0 of the hash of
key `k < 64` is `k` itself). -/
def hashId : Nat → Nat := fun k => k

/-! Population-count foundations. -/

theorem popcntAux_zero (f : Nat) : popcntAux f 0 = 0 := by
  cases f <;> simp [popcntAux]

theorem popcntAux_succ (f n : Nat) (h : n ≠ 0) :
    popcntAux (f + 1) n = popcntAux f (n / 2) + n % 2 := by
  simp [popcntAux, h]

theorem popcntAux_congr : ∀ f g n, n < 2 ^ f → f ≤ g → popcntAux f n = popcntAux g n := by
  intro f
  induction f with
  | zero =>
    intro g n hn _
    have h0 : n = 0 := by simpa using hn
    subst h0
    simp [popcntAux_zero]
  | succ f ih =>
    intro g n hn hg
    obtain ⟨g2, rfl⟩ : ∃ g2, g = g2 + 1 := ⟨g - 1, by omega⟩
    by_cases h0 : n = 0
    · subst h0; simp [popcntAux_zero]
    · rw [popcntAux_succ f n h0, popcntAux_succ g2 n h0]
      have h2 : (2 : Nat) ^ (f + 1) = 2 * 2 ^ f := by rw [pow_succ]; ring
      rw [ih g2 (n / 2) (by omega) (by omega)]

theorem popcnt_rec (n : Nat) (h : n < 2 ^ 64) : popcnt n = popcnt (n / 2) + n % 2 := by
  by_cases h0 : n = 0
  · subst h0; simp [popcnt, popcntAux_zero]
  · show popcntAux 64 n = popcntAux 64 (n / 2) + n % 2
    rw [show (64 : Nat) = 63 + 1 from rfl, popcntAux_succ 63 n h0]
    have h2 : (2 : Nat) ^ 64 = 2 * 2 ^ 63 := by norm_num
    rw [popcntAux_congr 63 (63 + 1) (n / 2) (by omega) (by omega)]

theorem popcntAux_spec : ∀ f n, n < 2 ^ f → popcntAux f n = (List.range f).countP n.testBit := by
  intro f
  induction f with
  | zero =>
    intro n hn
    have h0 : n = 0 := by simpa using hn
    subst h0
    simp [popcntAux_zero]
  | succ f ih =>
    intro n hn
    by_cases h0 : n = 0
    · subst h0
      have hnil : List.filter (Nat.testBit 0) (List.range (f + 1)) = [] := by
        simp [List.filter_eq_nil_iff, Nat.zero_testBit]
      simp [popcntAux_zero, List.countP_eq_length_filter, hnil]
    · rw [popcntAux_succ f n h0]
      have h2 : (2 : Nat) ^ (f + 1) = 2 * 2 ^ f := by rw [pow_succ]; ring
      rw [ih (n / 2) (by omega)]
      rw [List.range_succ_eq_map, List.countP_cons, List.countP_map]
      have hcomp : (n.testBit ∘ Nat.succ) = (n / 2).testBit := by
        funext i
        exact Nat.testBit_succ n i
      rw [hcomp, Nat.testBit_zero]
      rcases Nat.mod_two_eq_zero_or_one n with hm | hm <;> simp [hm]

theorem popcnt_spec (n : Nat) (h : n < 2 ^ 64) :
    popcnt n = (List.range 64).countP n.testBit :=
  popcntAux_spec 64 n h

theorem popcnt_shiftRight_le (m : Nat) (h : m < 2 ^ 64) :
    ∀ p, popcnt (m >>> p) ≤ popcnt m := by
  intro p
  induction p with
  | zero => simp
  | succ p ih =>
    have h1 : m >>> p < 2 ^ 64 := by
      have := Nat.shiftRight_eq_div_pow m p
      have := Nat.div_le_self m (2 ^ p)
      omega
    rw [Nat.shiftRight_succ]
    have h2 := popcnt_rec (m >>> p) h1
    omega

theorem occTest_iff_mod (m p : Nat) : occTest m p = true ↔ (m >>> p) % 2 = 1 := by
  rw [occTest, Nat.testBit_to_div_mod, Nat.shiftRight_eq_div_pow]
  simp

theorem num_set_until_pos (m p : Nat) (h : occTest m p = true) :
    1 ≤ num_set_until m p := by
  have hm : (m >>> p) % 2 = 1 := (occTest_iff_mod m p).mp h
  show 1 ≤ popcnt (m >>> p)
  unfold popcnt
  rw [show (64 : Nat) = 63 + 1 from rfl, popcntAux_succ 63 _ (by omega)]
  omega

theorem num_set_until_le (m p : Nat) (h : m < 2 ^ 64) :
    num_set_until m p ≤ num_set m :=
  popcnt_shiftRight_le m h p

theorem one_shiftLeft_eq (p : Nat) : (1 : Nat) <<< p = 2 ^ p := Nat.one_shiftLeft p

theorem occSet_lt (m p : Nat) (hm : m < 2 ^ 64) (hp : p < 64) : occSet m p < 2 ^ 64 := by
  have h1 : (1 : Nat) <<< p < 2 ^ 64 := by
    rw [one_shiftLeft_eq]
    exact Nat.pow_lt_pow_right (by omega) hp
  exact Nat.or_lt_two_pow hm h1

theorem occTest_occSet_self (m p : Nat) : occTest (occSet m p) p = true := by
  simp [occTest, occSet, Nat.testBit_or, one_shiftLeft_eq, Nat.testBit_two_pow_self]

theorem occTest_occSet_of (m p q : Nat) (h : occTest m q = true) :
    occTest (occSet m p) q = true := by
  simp [occTest, occSet, Nat.testBit_or]
  simp [occTest] at h
  exact Or.inl h

theorem popcnt_double (a : Nat) (h : a < 2 ^ 63) : popcnt (2 * a) = popcnt a := by
  have h64 : (2 : Nat) ^ 64 = 2 * 2 ^ 63 := by norm_num
  have h1 : 2 * a < 2 ^ 64 := by omega
  rw [popcnt_rec (2 * a) h1]
  simp [Nat.mul_div_cancel_left, Nat.mul_mod_right]

theorem popcnt_mul_pow (a : Nat) : ∀ s, a * 2 ^ s < 2 ^ 64 → popcnt (a * 2 ^ s) = popcnt a := by
  intro s
  induction s with
  | zero => intro _; simp
  | succ s ih =>
    intro h
    have heq : a * 2 ^ (s + 1) = 2 * (a * 2 ^ s) := by ring
    have h63 : a * 2 ^ s < 2 ^ 63 := by
      have h64 : (2 : Nat) ^ 64 = 2 * 2 ^ 63 := by norm_num
      omega
    have h64b : a * 2 ^ s < 2 ^ 64 := by
      have : (2 : Nat) ^ 63 ≤ 2 ^ 64 := by norm_num
      omega
    rw [heq, popcnt_double _ h63, ih h64b]

/-! Claim C5: `num_set_after`. -/

theorem num_set_after_spec (m p : Nat) (hm : m < 2 ^ 64) (hp : p ≤ 63) :
    num_set_after m p =
      (List.range 64).countP (fun i => decide (i ≤ p) && m.testBit i) := by
  unfold num_set_after
  have hsplit : (2 : Nat) ^ 64 = 2 ^ (p + 1) * 2 ^ (63 - p) := by
    rw [← pow_add]
    congr 1
    omega
  have hs : (m <<< (63 - p)) % 2 ^ 64 = m % 2 ^ (p + 1) * 2 ^ (63 - p) := by
    rw [Nat.shiftLeft_eq, hsplit, Nat.mul_mod_mul_right]
  rw [hs]
  have hmodlt : m % 2 ^ (p + 1) < 2 ^ (p + 1) := Nat.mod_lt _ (by positivity)
  have hb : m % 2 ^ (p + 1) * 2 ^ (63 - p) < 2 ^ 64 := by
    calc m % 2 ^ (p + 1) * 2 ^ (63 - p) < 2 ^ (p + 1) * 2 ^ (63 - p) :=
          mul_lt_mul_of_pos_right hmodlt (by positivity)
      _ = 2 ^ 64 := hsplit.symm
  rw [popcnt_mul_pow _ _ hb]
  have hsmall : m % 2 ^ (p + 1) < 2 ^ 64 := by
    have : (2 : Nat) ^ (p + 1) ≤ 2 ^ 64 := Nat.pow_le_pow_right (by omega) (by omega)
    omega
  rw [popcnt_spec _ hsmall]
  refine List.countP_congr ?_
  intro i _
  simp only [Nat.testBit_mod_two_pow]
  have : (decide (i < p + 1)) = (decide (i ≤ p)) := by
    by_cases h : i ≤ p <;> simp [h] <;> omega
  rw [this]

/-- Claim C5, counterexample: for the mask `m = 2` (exactly bit 1 set) and
position `p = 0`, `num_set_after` returns 0, while the number of set bits
at positions strictly greater than 0 is 1; the claimed characterisation is
false. -/
theorem c5_counterexample :
    num_set_after 2 0 ≠
      (List.range 64).countP (fun i => decide (0 < i) && (2 : Nat).testBit i) := by
  decide

/-- Claim C5 (amended): for every 64-bit mask `m` and position `p ≤ 63`,
`num_set_after m p` returns the number of set bits of `m` at positions at
most `p` (not at positions strictly greater than `p`). -/
theorem c5_num_set_after_counts_low_bits (m p : Nat) (hm : m < 2 ^ 64) (hp : p ≤ 63) :
    num_set_after m p =
      (List.range 64).countP (fun i => decide (i ≤ p) && m.testBit i) :=
  num_set_after_spec m p hm hp

/-- Witness for C5 at `m = 5`, `p = 1`. -/
theorem c5_witness :
    num_set_after 5 1 =
      (List.range 64).countP (fun i => decide (i ≤ 1) && (5 : Nat).testBit i) :=
  c5_num_set_after_counts_low_bits 5 1 (by decide) (by decide)

/-! Claim C4: merge-back on erase. -/

/-- Claim C4, counterexample: after removing one child, this branch keeps
six children with one entry each — six entries in total, below
`kLeafBurstThreshold = 30` — yet `removeChildFromBranchNode` compacts the
branch instead of merging it into an inner leaf, because merging is only
attempted when at most five children remain. -/
theorem c4_counterexample :
    exactSum cexChildren (num_set cexOcc) = 6 ∧
      isInnerLeafN (removeChildFromBranchNode hashId cexOcc cexChildren 6 0) = false := by
  decide

/-- Claim C4 (amended): merge-back happens only under the code's
pre-conditions: at most five children remain
(`newNumChild * cap(1) ≤ kLeafBurstThreshold`) and the capacity-based
estimate of the remaining entries is below the threshold.  When both hold
and the exact entry total is below the threshold, the branch is replaced
by a single inner leaf of the smallest size class whose capacity holds all
those entries. -/
theorem c4_merge_back_gated (hashF : Nat → Nat) (occ : Nat) (children : List Node)
    (location hashPos : Nat)
    (h1 : num_set occ * capacity 1 ≤ kLeafBurstThreshold)
    (h2 : estimateSum children (num_set occ) < kLeafBurstThreshold)
    (h3 : exactSum children (num_set occ) < kLeafBurstThreshold) :
    ∃ o es, removeChildFromBranchNode hashF occ children location hashPos =
        .innerLeaf ((exactSum children (num_set occ) + 1) / 8 + 1) o es ∧
      exactSum children (num_set occ) ≤
        capacity ((exactSum children (num_set occ) + 1) / 8 + 1) ∧
      ∀ c, 1 ≤ c → c < (exactSum children (num_set occ) + 1) / 8 + 1 →
        capacity c < exactSum children (num_set occ) := by
  have hstep : removeChildFromBranchNode hashF occ children location hashPos =
      .innerLeaf ((exactSum children (num_set occ) + 1) / 8 + 1)
        ((List.range (num_set occ + 1)).foldl
          (fun a i => mergeIntoLeafNode hashF hashPos a (children.getD i .empty)) (0, [])).1
        ((List.range (num_set occ + 1)).foldl
          (fun a i => mergeIntoLeafNode hashF hashPos a (children.getD i .empty)) (0, [])).2 := by
    simp only [removeChildFromBranchNode]
    rw [if_pos h1, if_pos h2, if_pos h3]
  have hcap : ∀ k, capacity k = 6 + (k - 1) * 8 := by
    intro k
    show 6 + (k - 1) * 24 / 3 = 6 + (k - 1) * 8
    omega
  have h3b : exactSum children (num_set occ) < 30 := h3
  refine ⟨_, _, hstep, ?_, ?_⟩
  · rw [hcap]
    omega
  · intro c hc1 hc2
    rw [hcap]
    omega

/-- Witness for C4: removing a child from a branch that keeps two
one-entry children merges them into a class-1 inner leaf. -/
theorem c4_witness :
    ∃ o es, removeChildFromBranchNode hashId 6 [oneLeaf 2, oneLeaf 1, Node.empty] 2 0 =
        .innerLeaf ((exactSum [oneLeaf 2, oneLeaf 1, Node.empty] (num_set 6) + 1) / 8 + 1) o es ∧
      exactSum [oneLeaf 2, oneLeaf 1, Node.empty] (num_set 6) ≤
        capacity ((exactSum [oneLeaf 2, oneLeaf 1, Node.empty] (num_set 6) + 1) / 8 + 1) ∧
      ∀ c, 1 ≤ c → c < (exactSum [oneLeaf 2, oneLeaf 1, Node.empty] (num_set 6) + 1) / 8 + 1 →
        capacity c < exactSum [oneLeaf 2, oneLeaf 1, Node.empty] (num_set 6) :=
  c4_merge_back_gated hashId 6 [oneLeaf 2, oneLeaf 1, Node.empty] 2 0
    (by decide) (by decide) (by decide)

/-! List-level facts about the leaf scans. -/

theorem set_getD_self {α : Type} (l : List α) (i : Nat) (d : α) (h : i < l.length) :
    l.set i (l.getD i d) = l := by
  induction l generalizing i with
  | nil => simp at h
  | cons x xs ih =>
    cases i with
    | zero => simp
    | succ i =>
      rw [List.getD_cons_succ, List.set_cons_succ, ih i (by simpa using h)]

theorem find_recurse_empty (fuel hash hashPos k : Nat) :
    find_recurse fuel .empty hash hashPos k = none := by
  cases fuel <;> simp [find_recurse]

theorem insertSortedLe_of_findScan (e : Entry) (es : List Entry)
    (h : (findScan e.key es).isSome) : insertSortedLe e es = (false, es) := by
  induction es with
  | nil => simp [findScan] at h
  | cons x xs ih =>
    by_cases hle : e.key ≤ x.key
    · by_cases heq : e.key = x.key
      · simp [insertSortedLe, hle, heq]
      · rw [findScan] at h
        simp [hle, heq] at h
    · rw [findScan] at h
      simp only [if_neg hle] at h
      simp [insertSortedLe, hle, ih h]

theorem listInsert_of_key_mem (e : Entry) (chain : List Entry)
    (h : ∃ x ∈ chain, x.key = e.key) : listInsert e chain = (false, chain) := by
  induction chain with
  | nil => simp at h
  | cons x xs ih =>
    by_cases hx : x.key = e.key
    · simp [listInsert, hx]
    · obtain ⟨y, hy, hyk⟩ := h
      rcases List.mem_cons.mp hy with rfl | hy2
      · exact absurd hyk hx
      · simp [listInsert, hx, ih ⟨y, hy2, hyk⟩]

/-! Claim C10: inserting over an existing key. -/

theorem insert_of_find_some (hashF : Nat → Nat) :
    ∀ fuel node hash hashPos k, ∀ v : Entry, ∀ e : Entry,
      find_recurse fuel node hash hashPos k = some v → e.key = k →
      insert_recurse hashF fuel node hash hashPos e = (false, node) := by
  intro fuel
  induction fuel with
  | zero => intro node hash hashPos k v e h _; simp [find_recurse] at h
  | succ fuel ih =>
    intro node hash hashPos k v e h hk
    match node with
    | .empty => simp [find_recurse] at h
    | .listLeaf count chain =>
      rw [find_recurse] at h
      have hmem : ∃ x ∈ chain, x.key = e.key := by
        obtain ⟨x, hx1, hx2⟩ := List.find?_isSome.mp (by rw [h]; rfl)
        exact ⟨x, hx1, by simpa [hk] using hx2⟩
      rw [insert_recurse, listInsert_of_key_mem e chain hmem]
      simp
    | .innerLeaf c occ es =>
      rw [find_recurse, find_entry] at h
      by_cases hocc : occTest occ (get_hash_chunk hash hashPos) = true
      · rw [if_pos hocc] at h
        have hscan : (findScan e.key es).isSome := by rw [hk, h]; rfl
        have hle := insertSortedLe_of_findScan e es hscan
        have hfe : (find_entry occ es hash hashPos e.key).isSome := by
          rw [find_entry, if_pos hocc, hk, h]; rfl
        rw [insert_recurse]
        by_cases hc : c = 4
        · subst hc
          simp only [if_pos rfl]
          by_cases hlen : es.length < capacity 4
          · simp [hlen, insert_entry, hocc, hle]
          · simp [hlen, hfe]
        · simp only [if_neg hc]
          by_cases hlen : es.length = capacity c
          · simp [hlen, hfe]
          · simp [hlen, insert_entry, hocc, hle]
      · simp only [Bool.not_eq_true] at hocc
        rw [if_neg (by simp [hocc])] at h
        exact absurd h (by simp)
    | .branch occ children =>
      rw [find_recurse] at h
      by_cases hocc : occTest occ (get_hash_chunk hash hashPos) = true
      · rw [if_pos hocc] at h
        have hlt : num_set_until occ (get_hash_chunk hash hashPos) - 1 < children.length := by
          by_contra hge
          rw [List.getD_eq_default _ _ (by omega), find_recurse_empty] at h
          exact absurd h (by simp)
        have hrec := ih _ hash (hashPos + 1) k v e h hk
        rw [insert_recurse]
        simp only [if_pos hocc, hrec]
        rw [set_getD_self _ _ _ hlt]
      · rw [if_neg (by simp_all)] at h
        exact absurd h (by simp)

/-- Claim C10: for a tree mapping key `k` to an entry `v`, inserting an
entry with the same key and any (possibly different) value returns `false`
and leaves the tree unchanged — the stored entry for `k` is still `v` and
the new value is discarded. -/
theorem c10_duplicate_insert_discards_value (hashF : Nat → Nat) (t : Node) (k : Nat)
    (v e : Entry) (h : find hashF t k = some v) (hk : e.key = k) :
    insert hashF t e = (false, t) ∧ find hashF (insert hashF t e).2 k = some v := by
  have h1 : insert hashF t e = (false, t) := by
    unfold insert
    exact insert_of_find_some hashF maxFuel t (hashF e.key) 0 k v e (by rw [hk]; exact h) hk
  refine ⟨h1, ?_⟩
  rw [h1]
  exact h

/-- Witness for C10: key 5 is mapped to value 7; inserting `(5, 9)`
returns `false` and the stored value stays 7. -/
theorem c10_witness :
    insert hashDemo (insert hashDemo Node.empty ⟨5, 7⟩).2 ⟨5, 9⟩ =
        (false, (insert hashDemo Node.empty ⟨5, 7⟩).2) ∧
      find hashDemo (insert hashDemo (insert hashDemo Node.empty ⟨5, 7⟩).2 ⟨5, 9⟩).2 5 =
        some ⟨5, 7⟩ :=
  c10_duplicate_insert_discards_value hashDemo (insert hashDemo Node.empty ⟨5, 7⟩).2 5
    ⟨5, 7⟩ ⟨5, 9⟩ (by decide) rfl

/-! Leaf-level toolkit for the double-insertion law. -/

theorem findScan_insertSortedLe_true (e : Entry) (es : List Entry) (l2 : List Entry)
    (h : insertSortedLe e es = (true, l2)) : (findScan e.key l2).isSome := by
  induction es generalizing l2 with
  | nil =>
    rw [insertSortedLe] at h
    obtain ⟨-, rfl⟩ := Prod.mk.injEq .. ▸ h
    simp [findScan]
  | cons x xs ih =>
    rw [insertSortedLe] at h
    by_cases hle : e.key ≤ x.key
    · by_cases heq : e.key = x.key
      · simp [hle, heq] at h
      · simp only [if_pos hle, if_neg heq] at h
        obtain ⟨-, rfl⟩ := Prod.mk.injEq .. ▸ h
        simp [findScan]
    · simp only [if_neg hle] at h
      obtain ⟨h1, rfl⟩ := Prod.mk.injEq .. ▸ h
      rw [findScan, if_neg hle]
      exact ih _ (by rw [← h1])

theorem findScan_insertSortedLt (e : Entry) (es : List Entry) :
    (findScan e.key (insertSortedLt e es)).isSome := by
  induction es with
  | nil => simp [insertSortedLt, findScan]
  | cons x xs ih =>
    rw [insertSortedLt]
    by_cases hlt : e.key < x.key
    · simp [hlt, findScan]
    · rw [if_neg hlt, findScan]
      by_cases hle : e.key ≤ x.key
      · have heq : e.key = x.key := by omega
        simp [hle, heq]
      · simp [hle, ih]

theorem insertSortedLe_length (e : Entry) (es : List Entry) (l2 : List Entry)
    (h : insertSortedLe e es = (true, l2)) : l2.length = es.length + 1 := by
  induction es generalizing l2 with
  | nil =>
    rw [insertSortedLe] at h
    obtain ⟨-, rfl⟩ := Prod.mk.injEq .. ▸ h
    rfl
  | cons x xs ih =>
    rw [insertSortedLe] at h
    by_cases hle : e.key ≤ x.key
    · by_cases heq : e.key = x.key
      · simp [hle, heq] at h
      · simp only [if_pos hle, if_neg heq] at h
        obtain ⟨-, rfl⟩ := Prod.mk.injEq .. ▸ h
        rfl
    · simp only [if_neg hle] at h
      obtain ⟨h1, rfl⟩ := Prod.mk.injEq .. ▸ h
      have := ih _ (by rw [← h1] : insertSortedLe e xs = (true, (insertSortedLe e xs).2))
      simp [this]

theorem insertSortedLt_length (e : Entry) (es : List Entry) :
    (insertSortedLt e es).length = es.length + 1 := by
  induction es with
  | nil => rfl
  | cons x xs ih =>
    rw [insertSortedLt]
    by_cases hlt : e.key < x.key <;> simp [hlt, ih]

theorem findScan_mono_Lt (k : Nat) (e2 : Entry) (es : List Entry)
    (h : (findScan k es).isSome) : (findScan k (insertSortedLt e2 es)).isSome := by
  induction es with
  | nil => simp [findScan] at h
  | cons x xs ih =>
    rw [findScan] at h
    rw [insertSortedLt]
    by_cases hlt : e2.key < x.key
    · rw [if_pos hlt, findScan]
      by_cases hle2 : k ≤ e2.key
      · exfalso
        by_cases hle : k ≤ x.key
        · have hkx : k = x.key := by
            by_contra hne
            rw [if_pos hle, if_neg hne] at h
            simp at h
          omega
        · rw [if_neg hle] at h
          omega
      · rw [if_neg hle2, findScan]
        exact h
    · rw [if_neg hlt, findScan]
      by_cases hle : k ≤ x.key
      · rw [if_pos hle]
        rw [if_pos hle] at h
        exact h
      · rw [if_neg hle]
        rw [if_neg hle] at h
        exact ih h

theorem findScan_mono_Le (k : Nat) (e2 : Entry) (es : List Entry)
    (h : (findScan k es).isSome) : (findScan k (insertSortedLe e2 es).2).isSome := by
  induction es with
  | nil => simp [findScan] at h
  | cons x xs ih =>
    rw [findScan] at h
    rw [insertSortedLe]
    by_cases hle1 : e2.key ≤ x.key
    · by_cases heq : e2.key = x.key
      · rw [if_pos hle1, if_pos heq]
        rw [findScan]
        by_cases hle : k ≤ x.key <;> simp only [if_pos, if_neg, hle, ite_true, ite_false] <;>
          simp_all [findScan]
      · rw [if_pos hle1, if_neg heq]
        rw [findScan]
        by_cases hle2 : k ≤ e2.key
        · exfalso
          by_cases hle : k ≤ x.key
          · have hkx : k = x.key := by
              by_contra hne
              rw [if_pos hle, if_neg hne] at h
              simp at h
            omega
          · rw [if_neg hle] at h
            omega
        · rw [if_neg hle2, findScan]
          exact h
    · rw [if_neg hle1]
      simp only [findScan]
      by_cases hle : k ≤ x.key
      · rw [if_pos hle]
        rw [if_pos hle] at h
        exact h
      · rw [if_neg hle]
        rw [if_neg hle] at h
        exact ih h

/-! List-index toolkit. -/

theorem getD_set_self {α : Type} (l : List α) (i : Nat) (x d : α) (h : i < l.length) :
    (l.set i x).getD i d = x := by
  induction l generalizing i with
  | nil => simp at h
  | cons y ys ih =>
    cases i with
    | zero => simp
    | succ i =>
      rw [List.set_cons_succ, List.getD_cons_succ]
      exact ih i (by simpa using h)

theorem getD_set_ne {α : Type} (l : List α) (i j : Nat) (x d : α) (h : i ≠ j) :
    (l.set j x).getD i d = l.getD i d := by
  induction l generalizing i j with
  | nil => simp
  | cons y ys ih =>
    cases j with
    | zero =>
      cases i with
      | zero => omega
      | succ i => simp [List.set_cons_zero, List.getD_cons_succ]
    | succ j =>
      cases i with
      | zero => simp [List.set_cons_succ, List.getD_cons_zero]
      | succ i =>
        rw [List.set_cons_succ, List.getD_cons_succ, List.getD_cons_succ]
        exact ih i j (by omega)

theorem getD_replicate {α : Type} (n i : Nat) (x d : α) (h : i < n) :
    (List.replicate n x).getD i d = x := by
  induction n generalizing i with
  | zero => omega
  | succ n ih =>
    cases i with
    | zero => simp [List.replicate_succ]
    | succ i =>
      rw [List.replicate_succ, List.getD_cons_succ]
      exact ih i (by omega)

theorem insertAt_length {α : Type} (x : α) :
    ∀ (i : Nat) (l : List α), i ≤ l.length → (insertAt i x l).length = l.length + 1 := by
  intro i
  induction i with
  | zero => intro l _; rfl
  | succ i ih =>
    intro l hl
    match l with
    | y :: l2 =>
      rw [insertAt]
      simp only [List.length_cons]
      rw [ih l2 (by simpa using hl)]

theorem insertAt_getD_self {α : Type} (x d : α) :
    ∀ (i : Nat) (l : List α), i ≤ l.length → (insertAt i x l).getD i d = x := by
  intro i
  induction i with
  | zero => intro l _; rfl
  | succ i ih =>
    intro l hl
    match l with
    | y :: l2 =>
      rw [insertAt, List.getD_cons_succ]
      exact ih l2 (by simpa using hl)

theorem getD_mem {α : Type} (l : List α) (i : Nat) (d : α) (h : i < l.length) :
    l.getD i d ∈ l := by
  rw [List.getD_eq_getElem l d h]
  exact List.getElem_mem h

/-! Occupation-index toolkit. -/

theorem get_hash_chunk_lt (h p : Nat) : get_hash_chunk h p < 64 :=
  Nat.mod_lt _ (by decide)

theorem location_lt_num_set (m p : Nat) (hm : m < 2 ^ 64) (h : occTest m p = true) :
    num_set_until m p - 1 < num_set m := by
  have h1 := num_set_until_pos m p h
  have h2 := num_set_until_le m p hm
  omega

theorem num_set_until_occSet_self (m p : Nat) (hm : m < 2 ^ 64) (hp : p < 64)
    (h : occTest m p = false) :
    num_set_until (occSet m p) p = num_set_until m p + 1 := by
  have hX : occSet m p < 2 ^ 64 := occSet_lt m p hm hp
  have hXs : occSet m p >>> p < 2 ^ 64 := by
    have h1 : occSet m p >>> p ≤ occSet m p := by
      rw [Nat.shiftRight_eq_div_pow]
      exact Nat.div_le_self _ _
    omega
  have hms : m >>> p < 2 ^ 64 := by
    have h1 : m >>> p ≤ m := by
      rw [Nat.shiftRight_eq_div_pow]
      exact Nat.div_le_self _ _
    omega
  unfold num_set_until
  rw [popcnt_spec _ hXs, popcnt_spec _ hms]
  have hpred : ∀ i, (occSet m p >>> p).testBit i = ((m >>> p).testBit i || decide (i = 0)) := by
    intro i
    rw [Nat.testBit_shiftRight, Nat.testBit_shiftRight]
    rw [occSet, Nat.testBit_or, one_shiftLeft_eq, Nat.testBit_two_pow]
    congr 1
    by_cases hi : i = 0
    · subst hi; simp
    · simp only [decide_eq_decide]
      omega
  have hbit0 : (m >>> p).testBit 0 = false := by
    rw [Nat.testBit_shiftRight]
    simpa [occTest] using h
  rw [show (64 : Nat) = 63 + 1 from rfl, List.range_succ_eq_map]
  rw [List.countP_cons, List.countP_cons, List.countP_map, List.countP_map]
  have htail : List.countP ((occSet m p >>> p).testBit ∘ Nat.succ) (List.range 63) =
      List.countP ((m >>> p).testBit ∘ Nat.succ) (List.range 63) := by
    refine List.countP_congr ?_
    intro i _
    simp only [Function.comp_apply, hpred (Nat.succ i)]
    simp
  rw [htail, hpred 0, hbit0]
  simp

/-! Toolkit for `insert_entry`. -/

theorem insert_entry_again (occ : Nat) (es : List Entry) (hash hashPos : Nat) (e : Entry)
    (o2 : Nat) (l2 : List Entry) (h : insert_entry occ es hash hashPos e = (true, o2, l2)) :
    insert_entry o2 l2 hash hashPos e = (false, o2, l2) := by
  unfold insert_entry at h ⊢
  by_cases hocc : occTest occ (get_hash_chunk hash hashPos) = true
  · rw [if_pos hocc] at h
    simp only [Prod.mk.injEq] at h
    obtain ⟨h1, h2, h3⟩ := h
    subst h2
    rw [if_pos hocc]
    have hs : insertSortedLe e es = (true, l2) := by
      rw [← h3, ← h1]
    rw [insertSortedLe_of_findScan e l2 (findScan_insertSortedLe_true e es l2 hs)]
  · rw [if_neg hocc] at h
    simp only [Prod.mk.injEq] at h
    obtain ⟨-, h2, h3⟩ := h
    subst h2 h3
    rw [if_pos (occTest_occSet_self occ _)]
    rw [insertSortedLe_of_findScan e _ (findScan_insertSortedLt e es)]

theorem insert_entry_testBit_self (occ : Nat) (es : List Entry) (hash hashPos : Nat)
    (e : Entry) :
    occTest (insert_entry occ es hash hashPos e).2.1 (get_hash_chunk hash hashPos) = true := by
  unfold insert_entry
  by_cases hocc : occTest occ (get_hash_chunk hash hashPos) = true
  · simpa [hocc] using hocc
  · simp [hocc, occTest_occSet_self]

theorem insert_entry_findScan (occ : Nat) (es : List Entry) (hash hashPos : Nat) (e : Entry)
    (o2 : Nat) (l2 : List Entry) (h : insert_entry occ es hash hashPos e = (true, o2, l2)) :
    (findScan e.key l2).isSome := by
  unfold insert_entry at h
  by_cases hocc : occTest occ (get_hash_chunk hash hashPos) = true
  · rw [if_pos hocc] at h
    simp only [Prod.mk.injEq] at h
    obtain ⟨h1, -, h3⟩ := h
    exact findScan_insertSortedLe_true e es l2 (by rw [← h3, ← h1])
  · rw [if_neg hocc] at h
    simp only [Prod.mk.injEq] at h
    obtain ⟨-, -, h3⟩ := h
    rw [← h3]
    exact findScan_insertSortedLt e es

theorem insert_entry_length (occ : Nat) (es : List Entry) (hash hashPos : Nat) (e : Entry)
    (o2 : Nat) (l2 : List Entry) (h : insert_entry occ es hash hashPos e = (true, o2, l2)) :
    l2.length = es.length + 1 := by
  unfold insert_entry at h
  by_cases hocc : occTest occ (get_hash_chunk hash hashPos) = true
  · rw [if_pos hocc] at h
    simp only [Prod.mk.injEq] at h
    obtain ⟨h1, -, h3⟩ := h
    exact insertSortedLe_length e es l2 (by rw [← h3, ← h1])
  · rw [if_neg hocc] at h
    simp only [Prod.mk.injEq] at h
    obtain ⟨-, -, h3⟩ := h
    rw [← h3]
    exact insertSortedLt_length e es

theorem insert_entry_occ_mono (occ : Nat) (es : List Entry) (hash hashPos : Nat)
    (e : Entry) (q : Nat) (h : occTest occ q = true) :
    occTest (insert_entry occ es hash hashPos e).2.1 q = true := by
  unfold insert_entry
  by_cases hocc : occTest occ (get_hash_chunk hash hashPos) = true
  · simpa [hocc] using h
  · simp [hocc, occTest_occSet_of occ _ q h]

theorem insert_entry_occ_lt (occ : Nat) (es : List Entry) (hash hashPos : Nat)
    (e : Entry) (h : occ < 2 ^ 64) :
    (insert_entry occ es hash hashPos e).2.1 < 2 ^ 64 := by
  unfold insert_entry
  by_cases hocc : occTest occ (get_hash_chunk hash hashPos) = true
  · simpa [hocc] using h
  · simpa [hocc] using occSet_lt occ _ h (get_hash_chunk_lt hash hashPos)

theorem insert_entry_findScan_mono (occ : Nat) (es : List Entry) (hash hashPos : Nat)
    (e : Entry) (k : Nat) (h : (findScan k es).isSome) :
    (findScan k (insert_entry occ es hash hashPos e).2.2).isSome := by
  unfold insert_entry
  by_cases hocc : occTest occ (get_hash_chunk hash hashPos) = true
  · simpa [hocc] using findScan_mono_Le k e es h
  · simpa [hocc] using findScan_mono_Lt k e es h

/-! Toolkit for `shapeOK`. -/

theorem shapeOK_branch_iff (fuel occ : Nat) (cs : List Node) :
    shapeOK (fuel + 1) (.branch occ cs) = true ↔
      occ < 2 ^ 64 ∧ cs.length = num_set occ ∧ ∀ c ∈ cs, shapeOK fuel c = true := by
  show (decide (occ < 2 ^ 64) && (cs.length == num_set occ) && cs.all (fun c => shapeOK fuel c)) = true ↔ _
  simp [List.all_eq_true, and_assoc]

theorem shapeOK_innerLeaf_iff (fuel c occ : Nat) (es : List Entry) :
    shapeOK (fuel + 1) (.innerLeaf c occ es) = true ↔ occ < 2 ^ 64 := by
  show decide (occ < 2 ^ 64) = true ↔ _
  simp

/-! Re-insertion hits the stored duplicate. -/

theorem insert_recurse_innerLeaf_dup (hashF : Nat → Nat) (fuel : Nat) (c occ : Nat)
    (es : List Entry) (hash hashPos : Nat) (e : Entry)
    (hocc : occTest occ (get_hash_chunk hash hashPos) = true)
    (hfind : (findScan e.key es).isSome) :
    insert_recurse hashF fuel (.innerLeaf c occ es) hash hashPos e =
      (false, .innerLeaf c occ es) := by
  cases fuel with
  | zero => rw [insert_recurse]
  | succ fuel =>
    rw [insert_recurse]
    have hfe : (find_entry occ es hash hashPos e.key).isSome = true := by
      rw [find_entry, if_pos hocc]
      exact hfind
    have hie : insert_entry occ es hash hashPos e = (false, occ, es) := by
      unfold insert_entry
      rw [if_pos hocc, insertSortedLe_of_findScan e es hfind]
    by_cases hc : c = 4
    · subst hc
      by_cases hlen : es.length < capacity 4
      · simp [hlen, hie]
      · simp [hlen, hfe]
    · by_cases hlen : es.length = capacity c
      · simp [hc, hlen, hfe]
      · simp [hc, hlen, hie]

theorem insert_recurse_listLeaf_dup (hashF : Nat → Nat) (fuel count : Nat)
    (chain : List Entry) (hash hashPos : Nat) (e : Entry)
    (hmem : ∃ x ∈ chain, x.key = e.key) :
    insert_recurse hashF fuel (.listLeaf count chain) hash hashPos e =
      (false, .listLeaf count chain) := by
  cases fuel with
  | zero => rw [insert_recurse]
  | succ fuel =>
    rw [insert_recurse, listInsert_of_key_mem e chain hmem]
    simp

theorem listInsert_key_mem (e : Entry) (chain ch2 : List Entry)
    (h : listInsert e chain = (true, ch2)) : ∃ x ∈ ch2, x.key = e.key := by
  induction chain generalizing ch2 with
  | nil =>
    rw [listInsert] at h
    obtain ⟨-, rfl⟩ := Prod.mk.injEq .. ▸ h
    exact ⟨e, List.mem_singleton_self e, rfl⟩
  | cons x xs ih =>
    rw [listInsert] at h
    by_cases hx : x.key = e.key
    · simp [hx] at h
    · simp only [if_neg hx, Prod.mk.injEq] at h
      obtain ⟨h1, h2⟩ := h
      obtain ⟨y, hy, hyk⟩ := ih (listInsert e xs).2 (by rw [← h1])
      exact ⟨y, by rw [← h2]; exact List.mem_cons_of_mem x hy, hyk⟩

/-! Characterisation of the burst loops. -/

theorem burstListLoop_spec :
    ∀ (es : List Entry) (cs : List Node) (pos count : Nat) (ch : List Entry),
      pos < cs.length → cs.getD pos .empty = .listLeaf count ch →
      burstListLoop pos cs es =
        cs.set pos (.listLeaf (count + es.length) (es.reverse ++ ch)) := by
  intro es
  induction es with
  | nil =>
    intro cs pos count ch hlen hch
    rw [burstListLoop]
    rw [show Node.listLeaf (count + [].length) (List.reverse [] ++ ch) = cs.getD pos .empty by
      rw [hch]; rfl]
    rw [set_getD_self cs pos .empty hlen]
  | cons f fs ih =>
    intro cs pos count ch hlen hch
    rw [burstListLoop, hch]
    have hlen2 : pos < (cs.set pos (.listLeaf (count + 1) (f :: ch))).length := by
      rw [List.length_set]
      exact hlen
    rw [ih (cs.set pos (.listLeaf (count + 1) (f :: ch))) pos (count + 1) (f :: ch) hlen2
      (getD_set_self cs pos _ .empty hlen)]
    rw [List.set_set]
    congr 2
    · simp [Nat.add_assoc, Nat.add_comm 1 fs.length]
    · simp

theorem burstListLoop_length (es : List Entry) (pos : Nat) (cs : List Node) :
    (burstListLoop pos cs es).length = cs.length := by
  induction es generalizing cs with
  | nil => rw [burstListLoop]
  | cons f fs ih =>
    rw [burstListLoop]
    rcases hx : cs.getD pos .empty with _ | ⟨cnt, ch⟩ | ⟨c, o, l⟩ | ⟨o, cs2⟩ <;>
      simp only [hx] <;> rw [ih] <;> simp

theorem distInsert_spec (occ2 hashPos : Nat) (cs : List Node) (hsh : Nat) (f : Entry)
    (pos0 : Nat) (hlen : pos0 < cs.length) :
    (distInsert occ2 hashPos cs hsh f).length = cs.length ∧
      ∀ c o l, cs.getD pos0 .empty = .innerLeaf c o l →
        ∃ o2 l2, (distInsert occ2 hashPos cs hsh f).getD pos0 .empty = .innerLeaf c o2 l2 ∧
          (o < 2 ^ 64 → o2 < 2 ^ 64) ∧
          (∀ q, occTest o q = true → occTest o2 q = true) ∧
          (∀ k, (findScan k l).isSome → (findScan k l2).isSome) := by
  rcases hx : cs.getD (num_set_until occ2 (get_hash_chunk hsh hashPos) - 1) .empty with
    _ | ⟨cnt, ch⟩ | ⟨c1, o1, l1⟩ | ⟨o1, cs1⟩ <;>
    unfold distInsert <;> simp only [hx]
  · exact ⟨by trivial, fun c o l hc => ⟨o, l, hc, fun a => a, fun q a => a, fun k a => a⟩⟩
  · exact ⟨by trivial, fun c o l hc => ⟨o, l, hc, fun a => a, fun q a => a, fun k a => a⟩⟩
  · refine ⟨by simp, ?_⟩
    intro c o l hc
    by_cases hpos : num_set_until occ2 (get_hash_chunk hsh hashPos) - 1 = pos0
    · rw [hpos] at hx
      rw [hc] at hx
      obtain ⟨rfl, rfl, rfl⟩ : c = c1 ∧ o = o1 ∧ l = l1 := by
        injection hx with a b c
        exact ⟨a, b, c⟩
      rw [hpos, getD_set_self cs pos0 _ .empty hlen]
      refine ⟨_, _, rfl, ?_, ?_, ?_⟩
      · intro hb
        exact insert_entry_occ_lt o l hsh (hashPos + 1) f hb
      · intro q hq
        exact insert_entry_occ_mono o l hsh (hashPos + 1) f q hq
      · intro k hk
        exact insert_entry_findScan_mono o l hsh (hashPos + 1) f k hk
    · rw [getD_set_ne _ _ _ _ _ (by omega)]
      exact ⟨o, l, hc, fun a => a, fun q a => a, fun k a => a⟩
  · exact ⟨by trivial, fun c o l hc => ⟨o, l, hc, fun a => a, fun q a => a, fun k a => a⟩⟩

theorem foldl_distInsert_spec (hashF : Nat → Nat) (occ2 hashPos pos0 : Nat) :
    ∀ (es : List Entry) (cs : List Node), pos0 < cs.length →
      ((es.foldl (fun cs2 e => distInsert occ2 hashPos cs2 (hashF e.key) e) cs).length =
          cs.length) ∧
        ∀ c o l, cs.getD pos0 .empty = .innerLeaf c o l →
          ∃ o2 l2,
            (es.foldl (fun cs2 e => distInsert occ2 hashPos cs2 (hashF e.key) e) cs).getD
                pos0 .empty = .innerLeaf c o2 l2 ∧
              (o < 2 ^ 64 → o2 < 2 ^ 64) ∧
              (∀ q, occTest o q = true → occTest o2 q = true) ∧
              (∀ k, (findScan k l).isSome → (findScan k l2).isSome) := by
  intro es
  induction es with
  | nil => exact fun cs _ => ⟨rfl, fun c o l hc => ⟨o, l, hc, fun a => a, fun q a => a, fun k a => a⟩⟩
  | cons f fs ih =>
    intro cs hlen
    obtain ⟨hstepLen, hstep⟩ := distInsert_spec occ2 hashPos cs (hashF f.key) f pos0 hlen
    obtain ⟨hfoldLen, hfold⟩ :=
      ih (distInsert occ2 hashPos cs (hashF f.key) f) (by rw [hstepLen]; exact hlen)
    constructor
    · rw [List.foldl_cons, hfoldLen, hstepLen]
    · intro c o l hc
      obtain ⟨o2, l2, h1, h2, h3, h4⟩ := hstep c o l hc
      obtain ⟨o3, l3, g1, g2, g3, g4⟩ := hfold c o2 l2 h1
      exact ⟨o3, l3, g1, fun hb => g2 (h2 hb), fun q hq => g3 q (h3 q hq),
        fun k hk => g4 k (h4 k hk)⟩

theorem shapeOK_empty (fuel : Nat) : shapeOK fuel .empty = true := by
  cases fuel <;> rfl

theorem shapeOK_innerLeaf_of_lt (fuel c : Nat) (occ : Nat) (es : List Entry)
    (h : occ < 2 ^ 64) : shapeOK fuel (.innerLeaf c occ es) = true := by
  cases fuel with
  | zero => rfl
  | succ fuel => exact (shapeOK_innerLeaf_iff fuel c occ es).mpr h

theorem bumpAt_length (l : List Nat) (i : Nat) : (bumpAt l i).length = l.length := by
  simp [bumpAt]

theorem burstSizes_length (hashF : Nat → Nat) (occ2 hashPos hashChunk : Nat)
    (es : List Entry) :
    (burstSizes hashF occ2 hashPos hashChunk es).length = num_set occ2 := by
  unfold burstSizes
  have step : ∀ (fs : List Entry) (sz : List Nat),
      (fs.foldl (fun sz2 e =>
          bumpAt sz2 (num_set_until occ2 (get_hash_chunk (hashF e.key) hashPos) - 1)) sz).length =
        sz.length := by
    intro fs
    induction fs with
    | nil => intro sz; rfl
    | cons f fs ih =>
      intro sz
      rw [List.foldl_cons, ih, bumpAt_length]
  rw [step, bumpAt_length, List.length_replicate]

theorem getD_map_node (l : List Nat) (f : Nat → Node) (i : Nat) (d : Node)
    (h : i < l.length) : (l.map f).getD i d = f (l.getD i 0) := by
  rw [List.getD_eq_getElem _ d (by simpa using h), List.getD_eq_getElem _ 0 h]
  simp

/-! Claim C8: the double-insertion law. -/

theorem insert_insert_innerLeaf (hashF : Nat → Nat) (fuel : Nat)
    (ih : ∀ (node : Node) (hash hashPos : Nat) (e : Entry) (t2 : Node),
      shapeOK fuel node = true →
      insert_recurse hashF fuel node hash hashPos e = (true, t2) →
      insert_recurse hashF fuel t2 hash hashPos e = (false, t2))
    (c occ : Nat) (es : List Entry) (hash hashPos : Nat) (e : Entry) (t2 : Node)
    (hshape : shapeOK (fuel + 1) (.innerLeaf c occ es) = true)
    (h : insert_recurse hashF (fuel + 1) (.innerLeaf c occ es) hash hashPos e = (true, t2)) :
    insert_recurse hashF (fuel + 1) t2 hash hashPos e = (false, t2) := by
  have hocclt : occ < 2 ^ 64 := (shapeOK_innerLeaf_iff fuel c occ es).mp hshape
  rw [insert_recurse] at h
  by_cases hc : c = 4
  · subst hc
    rw [if_pos rfl] at h
    by_cases hlen : es.length < capacity 4
    · rw [if_pos hlen] at h
      simp only [Prod.mk.injEq] at h
      obtain ⟨h1, h2⟩ := h
      subst h2
      have hr : insert_entry occ es hash hashPos e =
          (true, (insert_entry occ es hash hashPos e).2.1,
            (insert_entry occ es hash hashPos e).2.2) := by
        rw [← h1]
      exact insert_recurse_innerLeaf_dup hashF (fuel + 1) 4 _ _ hash hashPos e
        (insert_entry_testBit_self occ es hash hashPos e)
        (insert_entry_findScan occ es hash hashPos e _ _ hr)
    · rw [if_neg hlen] at h
      by_cases hfe : (find_entry occ es hash hashPos e.key).isSome = true
      · rw [if_pos hfe] at h
        exact absurd h (by simp)
      · rw [if_neg hfe] at h
        simp only [] at h
        set c0 := get_hash_chunk hash hashPos with hc0def
        set occ2 := occSet occ c0 with hocc2def
        have hchl : c0 < 64 := get_hash_chunk_lt hash hashPos
        have h2lt : occ2 < 2 ^ 64 := occSet_lt occ c0 hocclt hchl
        have h2t : occTest occ2 c0 = true := occTest_occSet_self occ c0
        have hpos : num_set_until occ2 c0 - 1 < num_set occ2 :=
          location_lt_num_set occ2 c0 h2lt h2t
        by_cases hmax : hashPos + 1 = kMaxDepth
        · rw [if_pos hmax] at h
          simp only [Prod.mk.injEq, true_and] at h
          subst h
          have hgd1 : ((List.replicate (num_set occ2) Node.empty).set
                (num_set_until occ2 c0 - 1) (.listLeaf 1 [e])).getD
                (num_set_until occ2 c0 - 1) .empty = .listLeaf 1 [e] :=
            getD_set_self _ _ _ _ (by rw [List.length_replicate]; exact hpos)
          have hloop := burstListLoop_spec es _ (num_set_until occ2 c0 - 1) 1 [e]
            (by rw [List.length_set, List.length_replicate]; exact hpos) hgd1
          rw [hloop, List.set_set]
          rw [insert_recurse, if_pos h2t]
          simp only []
          have hgd2 : ((List.replicate (num_set occ2) Node.empty).set
                (num_set_until occ2 c0 - 1)
                (.listLeaf (1 + es.length) (es.reverse ++ [e]))).getD
                (num_set_until occ2 c0 - 1) .empty =
              .listLeaf (1 + es.length) (es.reverse ++ [e]) :=
            getD_set_self _ _ _ _ (by rw [List.length_replicate]; exact hpos)
          rw [hgd2]
          rw [insert_recurse_listLeaf_dup hashF fuel _ _ hash (hashPos + 1) e
            ⟨e, by simp, rfl⟩]
          simp only [List.set_set]
        · rw [if_neg hmax] at h
          by_cases hbs : 1 < num_set occ2
          · rw [if_pos hbs] at h
            by_cases hsm : 2 + es.length - num_set occ2 ≤ capacity 1
            · rw [if_pos hsm] at h
              simp only [Prod.mk.injEq, true_and] at h
              subst h
              have h0 : ¬ occTest 0 (get_hash_chunk hash (hashPos + 1)) = true := by
                simp [occTest, Nat.zero_testBit]
              have hX : insert_entry 0 [] hash (hashPos + 1) e =
                  (true, occSet 0 (get_hash_chunk hash (hashPos + 1)), [e]) := by
                unfold insert_entry
                rw [if_neg h0]
                rfl
              have hgd0 : (List.replicate (num_set occ2) (Node.innerLeaf 1 0 [])).getD
                  (num_set_until occ2 c0 - 1) .empty = .innerLeaf 1 0 [] :=
                getD_replicate _ _ _ _ hpos
              have hd1 : distInsert occ2 hashPos
                    (List.replicate (num_set occ2) (Node.innerLeaf 1 0 [])) hash e =
                  (List.replicate (num_set occ2) (Node.innerLeaf 1 0 [])).set
                    (num_set_until occ2 c0 - 1)
                    (.innerLeaf 1 (occSet 0 (get_hash_chunk hash (hashPos + 1))) [e]) := by
                unfold distInsert
                rw [← hc0def]
                simp only [hgd0, hX]
              rw [hd1]
              have hgd1 : ((List.replicate (num_set occ2) (Node.innerLeaf 1 0 [])).set
                    (num_set_until occ2 c0 - 1)
                    (.innerLeaf 1 (occSet 0 (get_hash_chunk hash (hashPos + 1))) [e])).getD
                    (num_set_until occ2 c0 - 1) .empty =
                  .innerLeaf 1 (occSet 0 (get_hash_chunk hash (hashPos + 1))) [e] :=
                getD_set_self _ _ _ _ (by rw [List.length_replicate]; exact hpos)
              obtain ⟨hflen, hfspec⟩ := foldl_distInsert_spec hashF occ2 hashPos
                (num_set_until occ2 c0 - 1) es
                ((List.replicate (num_set occ2) (Node.innerLeaf 1 0 [])).set
                  (num_set_until occ2 c0 - 1)
                  (.innerLeaf 1 (occSet 0 (get_hash_chunk hash (hashPos + 1))) [e]))
                (by rw [List.length_set, List.length_replicate]; exact hpos)
              obtain ⟨o2, l2, hC, hBound, hMono, hFind⟩ :=
                hfspec 1 (occSet 0 (get_hash_chunk hash (hashPos + 1))) [e] hgd1
              rw [insert_recurse, if_pos h2t]
              simp only []
              rw [← hc0def]
              rw [hC]
              rw [insert_recurse_innerLeaf_dup hashF fuel 1 o2 l2 hash (hashPos + 1) e
                (hMono _ (occTest_occSet_self 0 _)) (hFind e.key (by simp [findScan]))]
              simp only []
              rw [← hC]
              rw [set_getD_self _ _ Node.empty (by
                rw [hflen, List.length_set, List.length_replicate]
                exact hpos)]
            · rw [if_neg hsm] at h
              simp only [Prod.mk.injEq] at h
              obtain ⟨h1, h2⟩ := h
              subst h2
              have hszlen : (burstSizes hashF occ2 hashPos c0 es).length = num_set occ2 :=
                burstSizes_length hashF occ2 hashPos c0 es
              have hgd0 : ((burstSizes hashF occ2 hashPos c0 es).map
                    (fun s => Node.innerLeaf ((s + 1) / 8 + 1) 0 [])).getD
                    (num_set_until occ2 c0 - 1) .empty =
                  .innerLeaf (((burstSizes hashF occ2 hashPos c0 es).getD
                    (num_set_until occ2 c0 - 1) 0 + 1) / 8 + 1) 0 [] :=
                getD_map_node _ _ _ _ (by rw [hszlen]; exact hpos)
              obtain ⟨hflen, hfspec⟩ := foldl_distInsert_spec hashF occ2 hashPos
                (num_set_until occ2 c0 - 1) es
                ((burstSizes hashF occ2 hashPos c0 es).map
                  (fun s => Node.innerLeaf ((s + 1) / 8 + 1) 0 []))
                (by rw [List.length_map, hszlen]; exact hpos)
              obtain ⟨o2, l2, hC, hBound, hMono, hFind⟩ := hfspec _ 0 [] hgd0
              rw [hC] at h1
              have hr : insert_recurse hashF fuel
                  (.innerLeaf (((burstSizes hashF occ2 hashPos c0 es).getD
                    (num_set_until occ2 c0 - 1) 0 + 1) / 8 + 1) o2 l2) hash (hashPos + 1) e =
                  (true, (insert_recurse hashF fuel
                    (.innerLeaf (((burstSizes hashF occ2 hashPos c0 es).getD
                      (num_set_until occ2 c0 - 1) 0 + 1) / 8 + 1) o2 l2) hash
                    (hashPos + 1) e).2) := by
                rw [← h1]
              have hsk : shapeOK fuel (.innerLeaf (((burstSizes hashF occ2 hashPos c0 es).getD
                  (num_set_until occ2 c0 - 1) 0 + 1) / 8 + 1) o2 l2) = true :=
                shapeOK_innerLeaf_of_lt fuel _ o2 l2 (hBound (by norm_num))
              have hsecond := ih _ hash (hashPos + 1) e _ hsk hr
              rw [insert_recurse, if_pos h2t]
              simp only []
              rw [← hc0def]
              rw [hC]
              rw [getD_set_self _ _ _ Node.empty (by
                rw [hflen, List.length_map, hszlen]
                exact hpos)]
              rw [hsecond]
              simp only [List.set_set]
          · rw [if_neg hbs] at h
            simp only [Prod.mk.injEq] at h
            obtain ⟨h1, h2⟩ := h
            subst h2
            have hr : insert_recurse hashF fuel (.innerLeaf 4 occ es) hash (hashPos + 1) e =
                (true, (insert_recurse hashF fuel (.innerLeaf 4 occ es) hash
                  (hashPos + 1) e).2) := by
              rw [← h1]
            have hsecond := ih _ hash (hashPos + 1) e _
              (shapeOK_innerLeaf_of_lt fuel 4 occ es hocclt) hr
            have hloc0 : num_set_until occ2 c0 - 1 = 0 := by
              have hp := num_set_until_pos occ2 c0 h2t
              have hle2 := num_set_until_le occ2 c0 h2lt
              omega
            rw [insert_recurse, if_pos h2t]
            simp only [hloc0, List.getD_cons_zero]
            rw [hsecond]
            simp
  · rw [if_neg hc] at h
    by_cases hlen : es.length = capacity c
    · rw [if_pos hlen] at h
      by_cases hfe : (find_entry occ es hash hashPos e.key).isSome = true
      · rw [if_pos hfe] at h
        exact absurd h (by simp)
      · rw [if_neg hfe] at h
        simp only [Prod.mk.injEq] at h
        obtain ⟨h1, h2⟩ := h
        subst h2
        have hr : insert_entry (mergeEntries hashF hashPos (0, []) es).1
            (mergeEntries hashF hashPos (0, []) es).2 hash hashPos e =
            (true, (insert_entry (mergeEntries hashF hashPos (0, []) es).1
              (mergeEntries hashF hashPos (0, []) es).2 hash hashPos e).2.1,
              (insert_entry (mergeEntries hashF hashPos (0, []) es).1
                (mergeEntries hashF hashPos (0, []) es).2 hash hashPos e).2.2) := by
          rw [← h1]
        exact insert_recurse_innerLeaf_dup hashF (fuel + 1) (c + 1) _ _ hash hashPos e
          (insert_entry_testBit_self _ _ hash hashPos e)
          (insert_entry_findScan _ _ hash hashPos e _ _ hr)
    · rw [if_neg hlen] at h
      simp only [Prod.mk.injEq] at h
      obtain ⟨h1, h2⟩ := h
      subst h2
      have hr : insert_entry occ es hash hashPos e =
          (true, (insert_entry occ es hash hashPos e).2.1,
            (insert_entry occ es hash hashPos e).2.2) := by
        rw [← h1]
      exact insert_recurse_innerLeaf_dup hashF (fuel + 1) c _ _ hash hashPos e
        (insert_entry_testBit_self occ es hash hashPos e)
        (insert_entry_findScan occ es hash hashPos e _ _ hr)

theorem insert_insert_aux (hashF : Nat → Nat) :
    ∀ fuel node hash hashPos, ∀ e : Entry, ∀ t2 : Node,
      shapeOK fuel node = true →
      insert_recurse hashF fuel node hash hashPos e = (true, t2) →
      insert_recurse hashF fuel t2 hash hashPos e = (false, t2) := by
  intro fuel
  induction fuel with
  | zero =>
    intro node hash hashPos e t2 _ h
    rw [insert_recurse] at h
    exact absurd h (by simp)
  | succ fuel ih =>
    intro node hash hashPos e t2 hshape h
    match node with
    | .empty =>
      rw [insert_recurse] at h
      by_cases hmax : hashPos = kMaxDepth
      · rw [if_pos hmax] at h
        simp only [Prod.mk.injEq, true_and] at h
        subst h
        exact insert_recurse_listLeaf_dup hashF (fuel + 1) 1 [e] hash hashPos e
          ⟨e, by simp, rfl⟩
      · rw [if_neg hmax] at h
        have h0 : ¬ occTest 0 (get_hash_chunk hash hashPos) = true := by
          simp [occTest, Nat.zero_testBit]
        have hX : insert_entry 0 [] hash hashPos e =
            (true, occSet 0 (get_hash_chunk hash hashPos), [e]) := by
          unfold insert_entry
          rw [if_neg h0]
          rfl
        simp only [hX] at h
        simp only [Prod.mk.injEq, true_and] at h
        subst h
        refine insert_recurse_innerLeaf_dup hashF (fuel + 1) 1 _ [e] hash hashPos e ?_ ?_
        · exact occTest_occSet_self 0 _
        · simp [findScan]
    | .listLeaf count chain =>
      rw [insert_recurse] at h
      simp only [Prod.mk.injEq] at h
      obtain ⟨h1, h2⟩ := h
      subst h2
      have hLI : listInsert e chain = (true, (listInsert e chain).2) := by
        rw [← h1]
      exact insert_recurse_listLeaf_dup hashF (fuel + 1) _ _ hash hashPos e
        (listInsert_key_mem e chain _ hLI)
    | .branch occ children =>
      obtain ⟨hocclt, hclen, hkids⟩ := (shapeOK_branch_iff fuel occ children).mp hshape
      rw [insert_recurse] at h
      by_cases hocc : occTest occ (get_hash_chunk hash hashPos) = true
      · rw [if_pos hocc] at h
        simp only [Prod.mk.injEq] at h
        obtain ⟨h1, h2⟩ := h
        subst h2
        have hloc : num_set_until occ (get_hash_chunk hash hashPos) - 1 < children.length := by
          rw [hclen]
          exact location_lt_num_set occ _ hocclt hocc
        have hr : insert_recurse hashF fuel
            (children.getD (num_set_until occ (get_hash_chunk hash hashPos) - 1) .empty)
            hash (hashPos + 1) e =
            (true, (insert_recurse hashF fuel
              (children.getD (num_set_until occ (get_hash_chunk hash hashPos) - 1) .empty)
              hash (hashPos + 1) e).2) := by
          rw [← h1]
        have hkid := hkids _ (getD_mem children _ .empty hloc)
        have hsecond := ih _ hash (hashPos + 1) e _ hkid hr
        rw [insert_recurse]
        rw [if_pos hocc]
        have hgd : (children.set (num_set_until occ (get_hash_chunk hash hashPos) - 1)
              (insert_recurse hashF fuel
                (children.getD (num_set_until occ (get_hash_chunk hash hashPos) - 1) .empty)
                hash (hashPos + 1) e).2).getD
              (num_set_until occ (get_hash_chunk hash hashPos) - 1) .empty =
            (insert_recurse hashF fuel
              (children.getD (num_set_until occ (get_hash_chunk hash hashPos) - 1) .empty)
              hash (hashPos + 1) e).2 :=
          getD_set_self children _ _ .empty hloc
        simp only [hgd, hsecond, List.set_set]
      · rw [if_neg hocc] at h
        simp only [Prod.mk.injEq] at h
        obtain ⟨h1, h2⟩ := h
        subst h2
        have hoccF : occTest occ (get_hash_chunk hash hashPos) = false := by
          simpa using hocc
        have hle : num_set_until occ (get_hash_chunk hash hashPos) ≤ children.length := by
          rw [hclen]
          exact num_set_until_le occ _ hocclt
        have hgd0 : (insertAt (num_set_until occ (get_hash_chunk hash hashPos)) Node.empty
              children).getD (num_set_until occ (get_hash_chunk hash hashPos)) .empty =
            .empty :=
          insertAt_getD_self Node.empty .empty _ children hle
        rw [hgd0] at h1
        have hr : insert_recurse hashF fuel .empty hash (hashPos + 1) e =
            (true, (insert_recurse hashF fuel .empty hash (hashPos + 1) e).2) := by
          rw [← h1]
        have hsecond := ih .empty hash (hashPos + 1) e _ (shapeOK_empty fuel) hr
        rw [insert_recurse]
        rw [if_pos (occTest_occSet_self occ (get_hash_chunk hash hashPos))]
        have hloc2 : num_set_until (occSet occ (get_hash_chunk hash hashPos))
              (get_hash_chunk hash hashPos) - 1 =
            num_set_until occ (get_hash_chunk hash hashPos) := by
          rw [num_set_until_occSet_self occ _ hocclt (get_hash_chunk_lt hash hashPos) hoccF]
          omega
        rw [hloc2]
        have hlen2 : num_set_until occ (get_hash_chunk hash hashPos) <
            (insertAt (num_set_until occ (get_hash_chunk hash hashPos)) Node.empty
              children).length := by
          rw [insertAt_length Node.empty _ children hle]
          omega
        have hgd2 : ((insertAt (num_set_until occ (get_hash_chunk hash hashPos)) Node.empty
              children).set (num_set_until occ (get_hash_chunk hash hashPos))
              (insert_recurse hashF fuel
                ((insertAt (num_set_until occ (get_hash_chunk hash hashPos)) Node.empty
                  children).getD (num_set_until occ (get_hash_chunk hash hashPos)) .empty)
                hash (hashPos + 1) e).2).getD
              (num_set_until occ (get_hash_chunk hash hashPos)) .empty =
            (insert_recurse hashF fuel
              ((insertAt (num_set_until occ (get_hash_chunk hash hashPos)) Node.empty
                children).getD (num_set_until occ (get_hash_chunk hash hashPos)) .empty)
              hash (hashPos + 1) e).2 :=
          getD_set_self _ _ _ .empty hlen2
        simp only [hgd0] at hgd2 ⊢
        simp only [hgd2, hsecond, List.set_set]
    | .innerLeaf c occ es =>
      exact insert_insert_innerLeaf hashF fuel
        (fun node2 hash2 hashPos2 e2 t3 => ih node2 hash2 hashPos2 e2 t3)
        c occ es hash hashPos e t2 hshape h

/-- Claim C8: for every (well-shaped) tree, after `insert` of an entry
succeeds (returns `true`), a second `insert` of the same entry returns
`false` (not new) and leaves the tree state identical to the state after
the first insert. -/
theorem c8_insert_twice_is_noop (hashF : Nat → Nat) (t t2 : Node) (e : Entry)
    (hs : shapeOK maxFuel t = true) (h : insert hashF t e = (true, t2)) :
    insert hashF t2 e = (false, t2) := by
  unfold insert at h ⊢
  exact insert_insert_aux hashF maxFuel t (hashF e.key) 0 e t2 hs h

/-- Witness for C8: inserting key 3 into the empty tree and inserting it
again. -/
theorem c8_witness :
    insert hashDemo (insert hashDemo Node.empty ⟨3, 3⟩).2 ⟨3, 3⟩ =
      (false, (insert hashDemo Node.empty ⟨3, 3⟩).2) :=
  c8_insert_twice_is_noop hashDemo Node.empty (insert hashDemo Node.empty ⟨3, 3⟩).2 ⟨3, 3⟩
    (by decide) (by rfl)

/-! Claims refuted by evaluating the embedded code on concrete inputs. -/

set_option maxRecDepth 100000

/-- Claim C1: falsified by the code.  `tree31` inserts keys 0..30 under
`hashDemo`; the 31st insert bursts the full class-4 leaf at depth 10 into
list-leaf children, but the source computes the child index `pos` once
from the incoming entry's hash chunk and reuses it for every existing
entry.  Key 1 is stored in the tree yet not findable, and the branch keeps
occupied slots whose children are empty. -/
theorem c1_burst_at_max_depth_misplaces_entries :
    (1 : Nat) ∈ keysOf tree31 ∧ contains hashDemo tree31 1 = false ∧
      occupiedSlotsOK maxFuel tree31 = false :=
  ⟨by decide, by decide, by decide⟩

/-- Claim C2: falsified by the code.  Erasing key 30, which sits in the
last node of the collision chain of `tree31`, only decrements the stored
`count`: the entry stays linked (a later `find` still returns it) and the
count no longer equals the chain length. -/
theorem c2_list_erase_tail_stays_linked :
    (find hashDemo tree32 30).isSome = true ∧ listCountsOK maxFuel tree32 = false :=
  ⟨by decide, by decide⟩

/-- Claim C3: falsified by the code.  `copy_recurse` has no defined result
for the empty tree (`assert(false)`, control flows off the end) and
dereferences a null `next` pointer for any single-node list-leaf chain;
the reachable tree obtained by additionally inserting key 16 into `tree31`
contains such a chain, so copying it has no defined result either. -/
theorem c3_copy_has_no_defined_result :
    copy Node.empty = none ∧
      (copy_recurse maxFuel (Node.listLeaf 1 [⟨5, 5⟩])).isNone = true ∧
      (copy (insert hashDemo tree31 ⟨16, 16⟩).2).isNone = true :=
  ⟨by rfl, by rfl, by decide⟩

/-- Claim C6: falsified by the code.  `tree31` stores key 1 (inside the
misplaced collision chain) and `treeB` stores key 1, yet `find_common`
returns absent, because the co-descent probes `tree31` along key 1's hash
path, which leads to an empty child. -/
theorem c6_find_common_misses_shared_key :
    find_common hashDemo tree31 treeB = none ∧
      (1 : Nat) ∈ keysOf tree31 ∧ (1 : Nat) ∈ keysOf treeB :=
  ⟨by decide, by decide, by decide⟩

/-- Claim C7: falsified by the code.  After inserting keys 0..30, erasing
key 30 twice (each erase of the never-unlinked tail decrements the stored
count) and erasing the absent key 16, the merge-back path trusts the
corrupted count 29 < 30 and merges 31 actual entries into a class-4 inner
leaf: its size 31 exceeds the capacity 30 (the C++ `insert_entry` asserts
`size < capacity()` and writes past the entry array). -/
theorem c7_inner_leaf_size_exceeds_capacity :
    innerSizesOK maxFuel tree34 = false := by decide

/-- Claim C9: falsified by the code.  Key 16 is absent from `tree31`
(`contains` returns false), yet erasing it mutates the tree: its hash
chunk's occupation bit is set while the child slot is empty, so the erase
flips the bit and rebuilds the branch. -/
theorem c9_erase_absent_key_mutates :
    contains hashDemo tree31 16 = false ∧ erase hashDemo tree31 16 ≠ tree31 := by
  refine ⟨by decide, fun hcontra => ?_⟩
  have hsh : shape (erase hashDemo tree31 16) = shape tree31 := congrArg shape hcontra
  have hne : shape (erase hashDemo tree31 16) ≠ shape tree31 := by decide
  exact hne hsh

end HighsHashTree

